import Mathlib

/-!
Verification development for the csv-zero streaming CSV tokenizer.

The repository ships the public header `src/include/csvzero.h` and two example
drivers; the engine's translation unit itself is not part of the source tree,
so the tokenizing state machine, scan-buffer management and byte-source
behaviour are modelled here from the specification (sections 3, 4.1-4.4 and 8
of `spec.md`), faithfully to its words.  Bytes are modelled as `Nat` values,
byte ranges as `List Nat`.
-/

/-- Comma delimiter byte. -/
def commaB : Nat := 44

/-- Double-quote byte. -/
def qtB : Nat := 34

/-- Line-feed byte. -/
def lfB : Nat := 10

/-- Carriage-return byte. -/
def crB : Nat := 13

/-- Error codes of the public `csvz_error` enumeration in `csvzero.h`
(declared without explicit initializers, so C assigns consecutive values
starting at 0, in declaration order). -/
inductive csvz_error where
  | CSVZ_OK
  | CSVZ_ERR_OOM
  | CSVZ_ERR_FIELD_TOO_LONG
  | CSVZ_ERR_EOF
  | CSVZ_ERR_INVALID_QUOTES
  | CSVZ_ERR_READ_FAILED
  | CSVZ_ERR_OPEN_ERROR
deriving Repr, DecidableEq

/-- Integer value of each enumerator, following the C rule for an enum
without initializers: the first enumerator is 0 and each later one is the
predecessor plus 1. -/
def csvz_error.toNat : csvz_error → Nat
  | .CSVZ_OK => 0
  | .CSVZ_ERR_OOM => 1
  | .CSVZ_ERR_FIELD_TOO_LONG => 2
  | .CSVZ_ERR_EOF => 3
  | .CSVZ_ERR_INVALID_QUOTES => 4
  | .CSVZ_ERR_READ_FAILED => 5
  | .CSVZ_ERR_OPEN_ERROR => 6

/-- Model of the `csvz_field` struct: field bytes (`data`/`len` collapse to
one list), the last-column flag and the needs-unescape flag. -/
structure csvz_field where
  data : List Nat
  last_column : Bool
  needs_unescape : Bool
deriving Repr, DecidableEq

/-- Outcome of scanning one field from a window of bytes.
`ok data nu last consumed raw` gives the field bytes (raw, escaped pairs kept
verbatim), the needs-unescape flag, the last-column flag, the number of window
bytes consumed (field plus its terminating delimiter, if any) and the raw
encoded length of the field (quotes included, delimiter excluded); `raw <
consumed` holds exactly when the field was ended by an explicit delimiter.
`needMore` means the window ended before the field was determined, `invalid`
is the INVALID_QUOTES condition. -/
inductive ScanRes where
  | ok (data : List Nat) (nu : Bool) (last : Bool) (consumed : Nat) (raw : Nat)
  | needMore
  | invalid
deriving Repr, DecidableEq

/-- Prepend one ordinary content byte to a scan outcome. -/
def ScanRes.consData (b : Nat) : ScanRes → ScanRes
  | .ok d nu l c r => .ok (b :: d) nu l (c + 1) (r + 1)
  | .needMore => .needMore
  | .invalid => .invalid

/-- Account for a structural quote byte (opening quote, or the quote that
moves `Quoted` to `QuotedSeenQuote`): consumed and raw grow, no data byte. -/
def ScanRes.consSkip : ScanRes → ScanRes
  | .ok d nu l c r => .ok d nu l (c + 1) (r + 1)
  | .needMore => .needMore
  | .invalid => .invalid

/-- Account for the second quote of an escaped pair: the doubled pair is
retained verbatim in the data and the needs-unescape flag is set. -/
def ScanRes.escPair : ScanRes → ScanRes
  | .ok d _ l c r => .ok (qtB :: qtB :: d) true l (c + 1) (r + 1)
  | .needMore => .needMore
  | .invalid => .invalid

/-- Tokenizer states of section 4.3 while inside one field
(`Done` is handled by the iterator loop, not the scanner). -/
inductive QState where
  | unq
  | q
  | qsq
deriving Repr, DecidableEq

/-- Modelled from the spec: the byte-by-byte transition rules of the
Tokenizing State Machine (section 4.3) applied to a window of bytes, the
engine's translation unit being absent from the tree.  `atEnd` tells whether
the window is followed by true end-of-input.  In `unq` a comma or `\n` ends
the field, `\r` immediately followed by `\n` ends it as a CRLF break, a lone
`\r` is an ordinary data byte; in `q` every byte except a quote is content;
in `qsq` a second quote is an escaped pair, a delimiter closes the field, and
a regular character is the INVALID_QUOTES condition. -/
def scanFrom (atEnd : Bool) : QState → List Nat → ScanRes
  | .unq, [] => if atEnd then .ok [] false true 0 0 else .needMore
  | .unq, b :: rest =>
    if b = commaB then .ok [] false false 1 0
    else if b = lfB then .ok [] false true 1 0
    else if b = crB then
      match rest.head? with
      | some x =>
        if x = lfB then .ok [] false true 2 0
        else ScanRes.consData crB (scanFrom atEnd .unq rest)
      | none => if atEnd then .ok [crB] false true 1 1 else .needMore
    else ScanRes.consData b (scanFrom atEnd .unq rest)
  | .q, [] => if atEnd then .ok [] false true 0 0 else .needMore
  | .q, b :: rest =>
    if b = qtB then ScanRes.consSkip (scanFrom atEnd .qsq rest)
    else ScanRes.consData b (scanFrom atEnd .q rest)
  | .qsq, [] => if atEnd then .ok [] false true 0 0 else .needMore
  | .qsq, b :: rest =>
    if b = qtB then ScanRes.escPair (scanFrom atEnd .q rest)
    else if b = commaB then .ok [] false false 1 0
    else if b = lfB then .ok [] false true 1 0
    else if b = crB then
      match rest.head? with
      | some x => if x = lfB then .ok [] false true 2 0 else .invalid
      | none => if atEnd then .invalid else .needMore
    else .invalid

/-- Scan one field from the start of a window: a leading quote byte opens a
quoted field (it is only meaningful as the very first byte), any other first
byte starts an unquoted field.  An empty window always asks for more; the
caller distinguishes end-of-input there. -/
def scanField (atEnd : Bool) : List Nat → ScanRes
  | [] => .needMore
  | b :: rest =>
    if b = qtB then ScanRes.consSkip (scanFrom atEnd .q rest)
    else scanFrom atEnd .unq (b :: rest)

/-- Modelled from the spec: the field-at-a-time loop of the in-memory
(`csvz_iter_from_bytes`) iterator, whose whole input is present from the
start (section 4.1, Bytes-borrowed; engine translation unit absent from the
tree).  The window `u` is the not-yet-consumed input; `pending` records that
the previous field was ended by an explicit delimiter, so that a trailing
empty field after a terminator is emitted as a genuine zero-length field
while a clean end is EOF (section 4.3).  Besides each field it records the
consumed and raw byte counts of section 4.2's buffer accounting.  The fuel
argument only serves termination; `parseFuel` below always suffices. -/
def parseLoopFull : Nat → List Nat → Bool → List (csvz_field × Nat × Nat) × csvz_error
  | 0, _, _ => ([], .CSVZ_ERR_READ_FAILED)
  | fuel + 1, u, pending =>
    if u = [] then
      if pending then
        let t := parseLoopFull fuel [] false
        ((⟨[], true, false⟩, 0, 0) :: t.1, t.2)
      else ([], .CSVZ_ERR_EOF)
    else
      match scanField true u with
      | .ok d nu l c r =>
        let t := parseLoopFull fuel (u.drop c) (decide (r < c))
        ((⟨d, l, nu⟩, c, r) :: t.1, t.2)
      | .invalid => ([], .CSVZ_ERR_INVALID_QUOTES)
      | .needMore => ([], .CSVZ_ERR_EOF)

/-- Fuel that always suffices for `parseLoopFull`. -/
def parseFuel (u : List Nat) : Nat := u.length + 2

/-- Field sequence and final status of parsing a complete in-memory input. -/
def parseContent (u : List Nat) : List csvz_field × csvz_error :=
  let t := parseLoopFull (parseFuel u) u false
  (t.1.map (·.1), t.2)

/-- Consumed and raw byte counts of each field of an input. -/
def fieldCosts (u : List Nat) : List (Nat × Nat) :=
  (parseLoopFull (parseFuel u) u false).1.map (·.2)

/-- Raw encoded lengths (quotes included, delimiters excluded) of the fields
of an input. -/
def fieldSpans (u : List Nat) : List Nat := (fieldCosts u).map (·.2)

/-- Length of the longest raw encoded field of an input. -/
def maxFieldSpan (u : List Nat) : Nat := (fieldSpans u).foldr max 0

/-- Engine state of the streaming iterator (section 3): `w` is the
unconsumed window currently held by the Scan Buffer (the region between
`parse_position` and `valid_end`), `r` the bytes the Byte Source has not yet
delivered, `srcEof` the end-of-input flag and `pending` the
delimiter-just-consumed flag of section 4.3's end-of-input rule. -/
structure EngSt where
  w : List Nat
  r : List Nat
  srcEof : Bool
  pending : Bool
deriving Repr, DecidableEq

/-- Number of bytes one pull delivers: a source of granularity `chunk = 0`
fills the whole free suffix (a single large read), a source of granularity
`chunk > 0` delivers at most `chunk` bytes per pull. -/
def pullSize (chunk free : Nat) : Nat :=
  if chunk = 0 then free else min free chunk

/-- Modelled from the spec: the streaming engine loop (sections 4.1-4.3;
engine translation unit absent from the tree), iterating `csvz_iter_next`
over a Byte Source of granularity `chunk` with a Scan Buffer of capacity
`cap`.  Scanning a field that the window does not determine triggers
compaction (implicit here: `w` is already the unconsumed region at offset 0);
if the window already spans the whole capacity the condition is a terminal
FIELD_TOO_LONG, otherwise the source is pulled into the free suffix, an
exhausted source flips the end-of-input flag, and a reported read of zero
bytes is end of input.  The fuel argument only serves termination;
`engineFuel` below always suffices. -/
def csvzLoop (cap chunk : Nat) : Nat → EngSt → List csvz_field × csvz_error
  | 0, _ => ([], .CSVZ_ERR_READ_FAILED)
  | fuel + 1, st =>
    if st.w = [] ∧ st.srcEof then
      if st.pending then
        let t := csvzLoop cap chunk fuel ⟨[], st.r, true, false⟩
        (⟨[], true, false⟩ :: t.1, t.2)
      else ([], .CSVZ_ERR_EOF)
    else
      match scanField st.srcEof st.w with
      | .ok d nu l c r =>
        let t := csvzLoop cap chunk fuel ⟨st.w.drop c, st.r, st.srcEof, decide (r < c)⟩
        (⟨d, l, nu⟩ :: t.1, t.2)
      | .invalid => ([], .CSVZ_ERR_INVALID_QUOTES)
      | .needMore =>
        if st.srcEof then ([], .CSVZ_ERR_EOF)
        else if cap ≤ st.w.length then ([], .CSVZ_ERR_FIELD_TOO_LONG)
        else
          match st.r with
          | [] => csvzLoop cap chunk fuel ⟨st.w, [], true, st.pending⟩
          | _ =>
            let k := pullSize chunk (cap - st.w.length)
            csvzLoop cap chunk fuel ⟨st.w ++ st.r.take k, st.r.drop k, false, st.pending⟩

/-- Fuel that always suffices for `csvzLoop` from a state. -/
def engineFuel (st : EngSt) : Nat :=
  3 * st.w.length + 4 * st.r.length + (cond st.srcEof 0 1) + 3

/-- Complete run of the streaming engine over `content`, starting from an
empty Scan Buffer (the constructor's first fill is the first pull). -/
def csvzRun (cap chunk : Nat) (content : List Nat) : List csvz_field × csvz_error :=
  csvzLoop cap chunk (engineFuel ⟨[], content, false, false⟩) ⟨[], content, false, false⟩

/-- Chunking-free abstraction of the engine used in the equivalence proofs:
it scans the capacity-limited prefix of all still-unparsed bytes `u` instead
of an explicit window.  `csvzLoop` is proved to coincide with it. -/
def absLoop (cap : Nat) : Nat → List Nat → Bool → Bool → List csvz_field × csvz_error
  | 0, _, _, _ => ([], .CSVZ_ERR_READ_FAILED)
  | fuel + 1, u, srcEof, pending =>
    if u = [] ∧ srcEof then
      if pending then
        let t := absLoop cap fuel [] true false
        (⟨[], true, false⟩ :: t.1, t.2)
      else ([], .CSVZ_ERR_EOF)
    else
      match scanField srcEof (if srcEof then u else u.take cap) with
      | .ok d nu l c r =>
        let t := absLoop cap fuel (u.drop c) srcEof (decide (r < c))
        (⟨d, l, nu⟩ :: t.1, t.2)
      | .invalid => ([], .CSVZ_ERR_INVALID_QUOTES)
      | .needMore =>
        if srcEof then ([], .CSVZ_ERR_EOF)
        else if cap ≤ u.length then ([], .CSVZ_ERR_FIELD_TOO_LONG)
        else absLoop cap fuel u true pending

/-- Fuel that always suffices for `absLoop`. -/
def absFuel (u : List Nat) (srcEof : Bool) : Nat :=
  u.length + (cond srcEof 0 1) + 2

/-- Complete run of the chunking-free abstraction over `content`. -/
def absRun (cap : Nat) (content : List Nat) : List csvz_field × csvz_error :=
  absLoop cap (absFuel content false) content false false

/-- Status tags of the `csvz_read_status` enumeration in `csvzero.h`. -/
inductive csvz_read_status where
  | CSVZ_READ_STATUS_OK
  | CSVZ_READ_STATUS_EOF
  | CSVZ_READ_STATUS_ERROR
deriving Repr, DecidableEq

/-- Model of the `csvz_read_result` struct returned by a read callback: the
bytes it wrote into the free suffix (whose count is `bytes_read`) and its
status tag. -/
structure csvz_read_result where
  bytes : List Nat
  status : csvz_read_status
deriving Repr, DecidableEq

/-- How the engine reacts to one pull result. -/
inductive PullOutcome where
  | more (bs : List Nat)
  | atEof
  | failed
deriving Repr, DecidableEq

/-- Modelled from the spec: the engine's interpretation of a callback's
result (sections 3 and 4.1; engine translation unit absent from the tree).
Whatever the callback returns is trusted as-is, except that a reported
`bytes_read` of 0 with status OK is coerced to EOF. -/
def applyRead (res : csvz_read_result) : PullOutcome :=
  match res.status with
  | .CSVZ_READ_STATUS_ERROR => .failed
  | .CSVZ_READ_STATUS_EOF => .atEof
  | .CSVZ_READ_STATUS_OK =>
    if res.bytes = [] then .atEof else .more res.bytes

/-- Outcome of one `csvz_iter_next` call: error code, the populated field on
CSVZ_OK, and the iterator state left behind (window, pending flag, unread
part of the response script). -/
structure NextOut where
  err : csvz_error
  field : Option csvz_field
  w : List Nat
  pending : Bool
  script : List csvz_read_result
deriving Repr, DecidableEq

/-- Finish the current field once the source has reached end of input. -/
def finishAtEof (w : List Nat) (pending : Bool) : csvz_error × Option csvz_field × List Nat × Bool :=
  if w = [] then
    if pending then (.CSVZ_OK, some ⟨[], true, false⟩, [], false)
    else (.CSVZ_ERR_EOF, none, [], false)
  else
    match scanField true w with
    | .ok d nu l c r => (.CSVZ_OK, some ⟨d, l, nu⟩, w.drop c, decide (r < c))
    | .invalid => (.CSVZ_ERR_INVALID_QUOTES, none, w, pending)
    | .needMore => (.CSVZ_ERR_EOF, none, w, pending)

/-- Modelled from the spec: one `csvz_iter_next` call of a callback-backed
iterator (sections 4.1-4.3; engine translation unit absent from the tree),
with the responses the callback will successively return given as a script.
The window is scanned; when it does not determine a field and already spans
the capacity the result is FIELD_TOO_LONG, otherwise the next response is
pulled and interpreted through `applyRead`: a hard error is READ_FAILED, end
of input finishes the field, and delivered bytes (truncated to the free
suffix) extend the window. -/
def csvz_iter_next (cap : Nat) (w : List Nat) (pending : Bool) :
    List csvz_read_result → NextOut
  | [] =>
    match scanField false w with
    | .ok d nu l c r => ⟨.CSVZ_OK, some ⟨d, l, nu⟩, w.drop c, decide (r < c), []⟩
    | .invalid => ⟨.CSVZ_ERR_INVALID_QUOTES, none, w, pending, []⟩
    | .needMore =>
      if cap ≤ w.length then ⟨.CSVZ_ERR_FIELD_TOO_LONG, none, w, pending, []⟩
      else
        let t := finishAtEof w pending
        ⟨t.1, t.2.1, t.2.2.1, t.2.2.2, []⟩
  | res :: tl =>
    match scanField false w with
    | .ok d nu l c r => ⟨.CSVZ_OK, some ⟨d, l, nu⟩, w.drop c, decide (r < c), res :: tl⟩
    | .invalid => ⟨.CSVZ_ERR_INVALID_QUOTES, none, w, pending, res :: tl⟩
    | .needMore =>
      if cap ≤ w.length then ⟨.CSVZ_ERR_FIELD_TOO_LONG, none, w, pending, res :: tl⟩
      else
        match applyRead res with
        | .failed => ⟨.CSVZ_ERR_READ_FAILED, none, w, pending, tl⟩
        | .atEof =>
          let t := finishAtEof w pending
          ⟨t.1, t.2.1, t.2.2.1, t.2.2.2, tl⟩
        | .more bs => csvz_iter_next cap (w ++ bs.take (cap - w.length)) pending tl

/-- Modelled from the spec: `csvz_unescape_in_place` (section 4.4; engine
translation unit absent from the tree): one left-to-right pass copying bytes
leftward, collapsing each doubled-quote pair into a single quote byte. -/
def csvz_unescape_in_place : List Nat → List Nat
  | [] => []
  | [b] => [b]
  | a :: b :: rest =>
    if a = qtB ∧ b = qtB then qtB :: csvz_unescape_in_place rest
    else a :: csvz_unescape_in_place (b :: rest)

/-- Whether a byte range contains a doubled-quote pair. -/
def hasDoubledQuote : List Nat → Bool
  | a :: b :: rest => (a = qtB && b = qtB) || hasDoubledQuote (b :: rest)
  | _ => false

/-- Logical content of one source field of a well-formed CSV input: its
content bytes and whether it is written in quoted form. -/
structure SrcField where
  content : List Nat
  quoted : Bool
deriving Repr, DecidableEq

/-- Double every quote byte (the CSV escaping convention). -/
def escQuotes : List Nat → List Nat
  | [] => []
  | b :: rest => if b = qtB then qtB :: qtB :: escQuotes rest else b :: escQuotes rest

/-- Encoded bytes of one field: quoted fields are wrapped in quotes with
inner quotes doubled, plain fields are their content verbatim. -/
def encField (f : SrcField) : List Nat :=
  if f.quoted then qtB :: (escQuotes f.content ++ [qtB]) else f.content

/-- Join byte sequences with a separator byte between consecutive ones. -/
def joinSep (sep : Nat) : List (List Nat) → List Nat
  | [] => []
  | [x] => x
  | x :: y :: rest => x ++ sep :: joinSep sep (y :: rest)

/-- Encoded bytes of one row: fields joined by commas. -/
def encRow (row : List SrcField) : List Nat :=
  joinSep commaB (row.map encField)

/-- Encoded bytes of a CSV input: rows joined by line feeds. -/
def encCsv (rows : List (List SrcField)) : List Nat :=
  joinSep lfB (rows.map encRow)

/-- A plain (unquoted) field may not contain a delimiter, quote or line
break byte; a quoted field may contain anything. -/
@[reducible] def wfSrcField (f : SrcField) : Prop :=
  f.quoted = false → ∀ b ∈ f.content, b ≠ commaB ∧ b ≠ qtB ∧ b ≠ lfB ∧ b ≠ crB

/-- A well-formed input: every row has at least one field, every field is
well formed, and the encoding is not empty unless there are no rows (the
empty encoding denotes zero rows, not one empty field). -/
def wfCsv (rows : List (List SrcField)) : Prop :=
  (∀ row ∈ rows, row ≠ [] ∧ ∀ f ∈ row, wfSrcField f) ∧ (rows = [] ∨ encCsv rows ≠ [])

/-- The raw field bytes the tokenizer reports for one source field (doubled
quotes retained verbatim, surrounding quotes stripped). -/
def expData (f : SrcField) : List Nat :=
  if f.quoted then escQuotes f.content else f.content

/-- The field record expected for one source field, given whether it closes
its row. -/
def expField (last : Bool) (f : SrcField) : csvz_field :=
  ⟨expData f, last, f.quoted && f.content.contains qtB⟩

/-- Expected field records of one row: every field but the last has
`last_column = false`. -/
def expRow : List SrcField → List csvz_field
  | [] => []
  | [f] => [expField true f]
  | f :: g :: rest => expField false f :: expRow (g :: rest)

/-- Expected field records of a whole input. -/
def expFields (rows : List (List SrcField)) : List csvz_field :=
  rows.flatMap expRow

/-- Messages the example programs print after their read loop ends
(modelled as tags rather than formatted strings). -/
inductive ExMsg where
  | fieldTooLong (row col : Nat)
  | invalidQuotes (row col : Nat)
  | errCode (err row col : Nat)
deriving Repr, DecidableEq

/-- The epilogue shared by `examples/callbacks.c` and
`examples/file_descriptor.c` (their `switch (err)` blocks are identical):
which messages `main` prints for the final error code, and the process exit
status.  The `CSVZ_ERR_INVALID_QUOTES` case has no `break` and falls through
into the empty `CSVZ_ERR_EOF` case, so only the invalid-quotes message is
printed for it; `main` ends without a `return`, which in C99 and later
returns 0 from `main`, so every path through the switch exits with status
0. -/
def exampleEpilogue (err : csvz_error) (row col : Nat) : List ExMsg × Nat :=
  (match err with
    | .CSVZ_ERR_FIELD_TOO_LONG => [.fieldTooLong row col]
    | .CSVZ_ERR_INVALID_QUOTES => [.invalidQuotes row col]
    | .CSVZ_ERR_EOF => []
    | e => [.errCode e.toNat row col], 0)

/-! ### Scanner lemmas -/

@[simp] theorem commaB_ne_qtB : commaB ≠ qtB := by decide
@[simp] theorem commaB_ne_lfB : commaB ≠ lfB := by decide
@[simp] theorem commaB_ne_crB : commaB ≠ crB := by decide
@[simp] theorem qtB_ne_commaB : qtB ≠ commaB := by decide
@[simp] theorem qtB_ne_lfB : qtB ≠ lfB := by decide
@[simp] theorem qtB_ne_crB : qtB ≠ crB := by decide
@[simp] theorem lfB_ne_commaB : lfB ≠ commaB := by decide
@[simp] theorem lfB_ne_qtB : lfB ≠ qtB := by decide
@[simp] theorem lfB_ne_crB : lfB ≠ crB := by decide
@[simp] theorem crB_ne_commaB : crB ≠ commaB := by decide
@[simp] theorem crB_ne_qtB : crB ≠ qtB := by decide
@[simp] theorem crB_ne_lfB : crB ≠ lfB := by decide


theorem consData_eq_ok {b : Nat} {p : ScanRes} {d nu l c r} :
    ScanRes.consData b p = .ok d nu l c r ↔
      ∃ d' c' r', p = .ok d' nu l c' r' ∧ d = b :: d' ∧ c = c' + 1 ∧ r = r' + 1 := by
  cases p with
  | ok d' nu' l' c' r' =>
    simp only [ScanRes.consData, ScanRes.ok.injEq]
    constructor
    · rintro ⟨h1, h2, h3, h4, h5⟩
      exact ⟨d', c', r', by simp [h2, h3], h1.symm, h4.symm, h5.symm⟩
    · rintro ⟨d2, c2, r2, ⟨e1, e2, e3, e4, e5⟩, h1, h2, h3⟩
      subst e1; subst e2; subst e3; subst e4; subst e5
      simp_all
  | needMore => simp [ScanRes.consData]
  | invalid => simp [ScanRes.consData]

theorem consSkip_eq_ok {p : ScanRes} {d nu l c r} :
    ScanRes.consSkip p = .ok d nu l c r ↔
      ∃ c' r', p = .ok d nu l c' r' ∧ c = c' + 1 ∧ r = r' + 1 := by
  cases p with
  | ok d' nu' l' c' r' =>
    simp only [ScanRes.consSkip, ScanRes.ok.injEq]
    constructor
    · rintro ⟨h1, h2, h3, h4, h5⟩
      exact ⟨c', r', by simp [h1, h2, h3], h4.symm, h5.symm⟩
    · rintro ⟨c2, r2, ⟨e1, e2, e3, e4, e5⟩, h1, h2⟩
      subst e1; subst e2; subst e3; subst e4; subst e5
      simp_all
  | needMore => simp [ScanRes.consSkip]
  | invalid => simp [ScanRes.consSkip]

theorem escPair_eq_ok {p : ScanRes} {d nu l c r} :
    ScanRes.escPair p = .ok d nu l c r ↔
      ∃ d' nu' c' r', p = .ok d' nu' l c' r' ∧ d = qtB :: qtB :: d' ∧ nu = true ∧
        c = c' + 1 ∧ r = r' + 1 := by
  cases p with
  | ok d' nu' l' c' r' =>
    simp only [ScanRes.escPair, ScanRes.ok.injEq]
    constructor
    · rintro ⟨h1, h2, h3, h4, h5⟩
      exact ⟨d', nu', c', r', by simp [h3], h1.symm, h2.symm, h4.symm, h5.symm⟩
    · rintro ⟨d2, nu2, c2, r2, ⟨e1, e2, e3, e4, e5⟩, h1, h2, h3, h4⟩
      subst e1; subst e2; subst e3; subst e4; subst e5
      simp_all
  | needMore => simp [ScanRes.escPair]
  | invalid => simp [ScanRes.escPair]

theorem consData_eq_needMore {b : Nat} {p : ScanRes} :
    ScanRes.consData b p = .needMore ↔ p = .needMore := by
  cases p <;> simp [ScanRes.consData]

theorem consSkip_eq_needMore {p : ScanRes} :
    ScanRes.consSkip p = .needMore ↔ p = .needMore := by
  cases p <;> simp [ScanRes.consSkip]

theorem escPair_eq_needMore {p : ScanRes} :
    ScanRes.escPair p = .needMore ↔ p = .needMore := by
  cases p <;> simp [ScanRes.escPair]

theorem consData_eq_invalid {b : Nat} {p : ScanRes} :
    ScanRes.consData b p = .invalid ↔ p = .invalid := by
  cases p <;> simp [ScanRes.consData]

theorem consSkip_eq_invalid {p : ScanRes} :
    ScanRes.consSkip p = .invalid ↔ p = .invalid := by
  cases p <;> simp [ScanRes.consSkip]

theorem escPair_eq_invalid {p : ScanRes} :
    ScanRes.escPair p = .invalid ↔ p = .invalid := by
  cases p <;> simp [ScanRes.escPair]

/-- Scanning with the end-of-input flag set never asks for more bytes. -/
theorem scanFrom_true_ne_needMore (w : List Nat) :
    ∀ s, scanFrom true s w ≠ .needMore := by
  induction w with
  | nil => intro s; cases s <;> simp [scanFrom]
  | cons b rest ih =>
    intro s
    cases s with
    | unq =>
      simp only [scanFrom]
      split
      · simp
      · split
        · simp
        · split
          · cases h : rest.head? <;> simp only [h]
            · simp
            · split <;> simp [consData_eq_needMore, ih .unq]
          · simp [consData_eq_needMore, ih .unq]
    | q =>
      simp only [scanFrom]
      split
      · simp [consSkip_eq_needMore, ih .qsq]
      · simp [consData_eq_needMore, ih .q]
    | qsq =>
      simp only [scanFrom]
      split
      · simp [escPair_eq_needMore, ih .q]
      · split
        · simp
        · split
          · simp
          · split
            · cases h : rest.head? <;> simp only [h]
              · simp
              · split <;> simp
            · simp

theorem scanField_true_ne_needMore {w : List Nat} (hw : w ≠ []) :
    scanField true w ≠ .needMore := by
  cases w with
  | nil => exact absurd rfl hw
  | cons b rest =>
    simp only [scanField]
    split
    · simp [consSkip_eq_needMore, scanFrom_true_ne_needMore]
    · exact scanFrom_true_ne_needMore _ _

theorem head?_append_some {A : Type} {l e : List A} {y : A} (h : l.head? = some y) :
    (l ++ e).head? = some y := by
  cases l <;> simp_all

/-- A scan outcome `ok` is stable under extending the window and under the
end-of-input flag: the bytes that determined it are all inside the window. -/
theorem scanFrom_ok_append {w : List Nat} :
    ∀ {s d nu l c r}, scanFrom false s w = .ok d nu l c r →
      ∀ (b : Bool) (e : List Nat), scanFrom b s (w ++ e) = .ok d nu l c r := by
  induction w with
  | nil => intro s d nu l c r h; cases s <;> simp [scanFrom] at h
  | cons x rest ih =>
    intro s d nu l c r h b e
    rw [List.cons_append]
    cases s with
    | unq =>
      by_cases h1 : x = commaB
      · simpa [scanFrom, h1] using h
      by_cases h2 : x = lfB
      · simp only [scanFrom, if_neg h1, if_pos h2] at h ⊢
        exact h
      by_cases h3 : x = crB
      · cases hh : rest.head? with
        | some y =>
          by_cases h4 : y = lfB
          · simp only [scanFrom, if_neg h1, if_neg h2, if_pos h3, hh,
              head?_append_some hh, if_pos h4] at h ⊢
            exact h
          · simp only [scanFrom, if_neg h1, if_neg h2, if_pos h3, hh,
              head?_append_some hh, if_neg h4] at h ⊢
            obtain ⟨d', c', r', p, hd, hc, hr⟩ := consData_eq_ok.mp h
            exact consData_eq_ok.mpr ⟨d', c', r', ih p b e, hd, hc, hr⟩
        | none =>
          simp [scanFrom, if_neg h1, if_neg h2, if_pos h3, hh] at h
      · simp only [scanFrom, if_neg h1, if_neg h2, if_neg h3] at h ⊢
        obtain ⟨d', c', r', p, hd, hc, hr⟩ := consData_eq_ok.mp h
        exact consData_eq_ok.mpr ⟨d', c', r', ih p b e, hd, hc, hr⟩
    | q =>
      by_cases h1 : x = qtB
      · simp only [scanFrom, if_pos h1] at h ⊢
        obtain ⟨c', r', p, hc, hr⟩ := consSkip_eq_ok.mp h
        exact consSkip_eq_ok.mpr ⟨c', r', ih p b e, hc, hr⟩
      · simp only [scanFrom, if_neg h1] at h ⊢
        obtain ⟨d', c', r', p, hd, hc, hr⟩ := consData_eq_ok.mp h
        exact consData_eq_ok.mpr ⟨d', c', r', ih p b e, hd, hc, hr⟩
    | qsq =>
      by_cases h1 : x = qtB
      · simp only [scanFrom, if_pos h1] at h ⊢
        obtain ⟨d', nu', c', r', p, hd, hnu, hc, hr⟩ := escPair_eq_ok.mp h
        exact escPair_eq_ok.mpr ⟨d', nu', c', r', ih p b e, hd, hnu, hc, hr⟩
      by_cases h2 : x = commaB
      · simp only [scanFrom, if_neg h1, if_pos h2] at h ⊢
        exact h
      by_cases h3 : x = lfB
      · simp only [scanFrom, if_neg h1, if_neg h2, if_pos h3] at h ⊢
        exact h
      by_cases h4 : x = crB
      · cases hh : rest.head? with
        | some y =>
          by_cases h5 : y = lfB
          · simp only [scanFrom, if_neg h1, if_neg h2, if_neg h3, if_pos h4, hh,
              head?_append_some hh, if_pos h5] at h ⊢
            exact h
          · simp only [scanFrom, if_neg h1, if_neg h2, if_neg h3, if_pos h4, hh,
              if_neg h5] at h
            simp at h
        | none =>
          simp [scanFrom, if_neg h1, if_neg h2, if_neg h3, if_pos h4, hh] at h
      · simp [scanFrom, if_neg h1, if_neg h2, if_neg h3, if_neg h4] at h

/-- A scan outcome `invalid` is likewise stable under window extension. -/
theorem scanFrom_invalid_append {w : List Nat} :
    ∀ {s}, scanFrom false s w = .invalid →
      ∀ (b : Bool) (e : List Nat), scanFrom b s (w ++ e) = .invalid := by
  induction w with
  | nil => intro s h; cases s <;> simp [scanFrom] at h
  | cons x rest ih =>
    intro s h b e
    rw [List.cons_append]
    cases s with
    | unq =>
      by_cases h1 : x = commaB
      · simp [scanFrom, if_pos h1] at h
      by_cases h2 : x = lfB
      · simp [scanFrom, if_neg h1, if_pos h2] at h
      by_cases h3 : x = crB
      · cases hh : rest.head? with
        | some y =>
          by_cases h4 : y = lfB
          · simp [scanFrom, if_neg h1, if_neg h2, if_pos h3, hh, if_pos h4] at h
          · simp only [scanFrom, if_neg h1, if_neg h2, if_pos h3, hh,
              head?_append_some hh, if_neg h4, consData_eq_invalid] at h ⊢
            exact ih h b e
        | none =>
          simp [scanFrom, if_neg h1, if_neg h2, if_pos h3, hh] at h
      · simp only [scanFrom, if_neg h1, if_neg h2, if_neg h3,
          consData_eq_invalid] at h ⊢
        exact ih h b e
    | q =>
      by_cases h1 : x = qtB
      · simp only [scanFrom, if_pos h1, consSkip_eq_invalid] at h ⊢
        exact ih h b e
      · simp only [scanFrom, if_neg h1, consData_eq_invalid] at h ⊢
        exact ih h b e
    | qsq =>
      by_cases h1 : x = qtB
      · simp only [scanFrom, if_pos h1, escPair_eq_invalid] at h ⊢
        exact ih h b e
      by_cases h2 : x = commaB
      · simp [scanFrom, if_neg h1, if_pos h2] at h
      by_cases h3 : x = lfB
      · simp [scanFrom, if_neg h1, if_neg h2, if_pos h3] at h
      by_cases h4 : x = crB
      · cases hh : rest.head? with
        | some y =>
          by_cases h5 : y = lfB
          · simp [scanFrom, if_neg h1, if_neg h2, if_neg h3, if_pos h4, hh,
              if_pos h5] at h
          · simp only [scanFrom, if_neg h1, if_neg h2, if_neg h3, if_pos h4,
              head?_append_some hh, if_neg h5]
        | none =>
          simp [scanFrom, if_neg h1, if_neg h2, if_neg h3, if_pos h4, hh] at h
      · simp [scanFrom, if_neg h1, if_neg h2, if_neg h3, if_neg h4]

/-- Consumed-byte accounting: a completed scan consumed at least its raw
field bytes and no more bytes than the window holds. -/
theorem scanFrom_ok_bounds {w : List Nat} :
    ∀ {atEnd s d nu l c r}, scanFrom atEnd s w = .ok d nu l c r →
      r ≤ c ∧ c ≤ w.length := by
  induction w with
  | nil =>
    intro atEnd s d nu l c r h
    cases s <;> cases atEnd <;> simp [scanFrom] at h <;> omega
  | cons x rest ih =>
    intro atEnd s d nu l c r h
    simp only [List.length_cons]
    cases s with
    | unq =>
      by_cases h1 : x = commaB
      · simp only [scanFrom, if_pos h1, ScanRes.ok.injEq] at h
        omega
      by_cases h2 : x = lfB
      · simp only [scanFrom, if_neg h1, if_pos h2, ScanRes.ok.injEq] at h
        omega
      by_cases h3 : x = crB
      · cases hh : rest.head? with
        | some y =>
          by_cases h4 : y = lfB
          · simp only [scanFrom, if_neg h1, if_neg h2, if_pos h3, hh, if_pos h4,
              ScanRes.ok.injEq] at h
            have hr : rest ≠ [] := by intro hr0; rw [hr0] at hh; simp at hh
            have := List.length_pos.mpr hr
            omega
          · simp only [scanFrom, if_neg h1, if_neg h2, if_pos h3, hh, if_neg h4] at h
            obtain ⟨d', c', r', p, hd, hc, hr⟩ := consData_eq_ok.mp h
            have := ih p
            omega
        | none =>
          cases atEnd with
          | false => simp [scanFrom, if_neg h1, if_neg h2, if_pos h3, hh] at h
          | true =>
            simp only [scanFrom, if_neg h1, if_neg h2, if_pos h3, hh, if_pos rfl,
              ScanRes.ok.injEq] at h
            obtain ⟨-, -, -, hc, hr⟩ := h
            omega
      · simp only [scanFrom, if_neg h1, if_neg h2, if_neg h3] at h
        obtain ⟨d', c', r', p, hd, hc, hr⟩ := consData_eq_ok.mp h
        have := ih p
        omega
    | q =>
      by_cases h1 : x = qtB
      · simp only [scanFrom, if_pos h1] at h
        obtain ⟨c', r', p, hc, hr⟩ := consSkip_eq_ok.mp h
        have := ih p
        omega
      · simp only [scanFrom, if_neg h1] at h
        obtain ⟨d', c', r', p, hd, hc, hr⟩ := consData_eq_ok.mp h
        have := ih p
        omega
    | qsq =>
      by_cases h1 : x = qtB
      · simp only [scanFrom, if_pos h1] at h
        obtain ⟨d', nu', c', r', p, hd, hnu, hc, hr⟩ := escPair_eq_ok.mp h
        have := ih p
        omega
      by_cases h2 : x = commaB
      · simp only [scanFrom, if_neg h1, if_pos h2, ScanRes.ok.injEq] at h
        omega
      by_cases h3 : x = lfB
      · simp only [scanFrom, if_neg h1, if_neg h2, if_pos h3, ScanRes.ok.injEq] at h
        omega
      by_cases h4 : x = crB
      · cases hh : rest.head? with
        | some y =>
          by_cases h5 : y = lfB
          · simp only [scanFrom, if_neg h1, if_neg h2, if_neg h3, if_pos h4, hh,
              if_pos h5, ScanRes.ok.injEq] at h
            have hr : rest ≠ [] := by intro hr0; rw [hr0] at hh; simp at hh
            have := List.length_pos.mpr hr
            omega
          · simp [scanFrom, if_neg h1, if_neg h2, if_neg h3, if_pos h4, hh,
              if_neg h5] at h
        | none =>
          cases atEnd <;>
            simp [scanFrom, if_neg h1, if_neg h2, if_neg h3, if_pos h4, hh] at h
      · simp [scanFrom, if_neg h1, if_neg h2, if_neg h3, if_neg h4] at h

theorem head?_take_pos {A : Type} {l : List A} {n : Nat} (hn : 1 ≤ n) :
    (l.take n).head? = l.head? := by
  cases l with
  | nil => simp
  | cons x tl =>
    cases n with
    | zero => omega
    | succ m => simp

/-- A scan that ended at an explicit delimiter is already determined by the
consumed prefix of the window. -/
theorem scanFrom_ok_take {u : List Nat} :
    ∀ {s d nu l c r}, scanFrom true s u = .ok d nu l c r → r < c →
      scanFrom false s (u.take c) = .ok d nu l c r := by
  induction u with
  | nil =>
    intro s d nu l c r h hrc
    cases s <;> simp [scanFrom] at h <;> omega
  | cons x rest ih =>
    intro s d nu l c r h hrc
    cases s with
    | unq =>
      by_cases h1 : x = commaB
      · simp only [scanFrom, if_pos h1, ScanRes.ok.injEq] at h
        obtain ⟨hd, hnu, hl, hc, hr⟩ := h
        subst hd; subst hnu; subst hl
        rw [← hc]
        simp [scanFrom, if_pos h1, hc, hr]
      by_cases h2 : x = lfB
      · simp only [scanFrom, if_neg h1, if_pos h2, ScanRes.ok.injEq] at h
        obtain ⟨hd, hnu, hl, hc, hr⟩ := h
        subst hd; subst hnu; subst hl
        rw [← hc]
        simp [scanFrom, if_neg h1, if_pos h2, hc, hr]
      by_cases h3 : x = crB
      · cases hh : rest.head? with
        | some y =>
          by_cases h4 : y = lfB
          · simp only [scanFrom, if_neg h1, if_neg h2, if_pos h3, hh, if_pos h4,
              ScanRes.ok.injEq] at h
            obtain ⟨hd, hnu, hl, hc, hr⟩ := h
            subst hd; subst hnu; subst hl
            rw [← hc]
            cases rest with
            | nil => simp at hh
            | cons z tl =>
              simp only [List.head?_cons, Option.some.injEq] at hh
              subst hh; subst h4
              simp [scanFrom, if_neg h1, if_neg h2, if_pos h3, hc, hr]
          · simp only [scanFrom, if_neg h1, if_neg h2, if_pos h3, hh, if_neg h4] at h
            obtain ⟨d', c', r', p, hd, hc, hr⟩ := consData_eq_ok.mp h
            have hrc' : r' < c' := by omega
            have hpos : 1 ≤ c' := by omega
            rw [hc, List.take_succ_cons]
            simp only [scanFrom, if_neg h1, if_neg h2, if_pos h3,
              head?_take_pos hpos, hh, if_neg h4]
            exact consData_eq_ok.mpr ⟨d', c', r', ih p hrc', hd, rfl, by omega⟩
        | none =>
          simp only [scanFrom, if_neg h1, if_neg h2, if_pos h3, hh, if_pos rfl,
            ScanRes.ok.injEq] at h
          obtain ⟨-, -, -, hc, hr⟩ := h
          omega
      · simp only [scanFrom, if_neg h1, if_neg h2, if_neg h3] at h
        obtain ⟨d', c', r', p, hd, hc, hr⟩ := consData_eq_ok.mp h
        have hrc' : r' < c' := by omega
        rw [hc, List.take_succ_cons]
        simp only [scanFrom, if_neg h1, if_neg h2, if_neg h3]
        exact consData_eq_ok.mpr ⟨d', c', r', ih p hrc', hd, rfl, by omega⟩
    | q =>
      by_cases h1 : x = qtB
      · simp only [scanFrom, if_pos h1] at h
        obtain ⟨c', r', p, hc, hr⟩ := consSkip_eq_ok.mp h
        have hrc' : r' < c' := by omega
        rw [hc, List.take_succ_cons]
        simp only [scanFrom, if_pos h1]
        exact consSkip_eq_ok.mpr ⟨c', r', ih p hrc', rfl, by omega⟩
      · simp only [scanFrom, if_neg h1] at h
        obtain ⟨d', c', r', p, hd, hc, hr⟩ := consData_eq_ok.mp h
        have hrc' : r' < c' := by omega
        rw [hc, List.take_succ_cons]
        simp only [scanFrom, if_neg h1]
        exact consData_eq_ok.mpr ⟨d', c', r', ih p hrc', hd, rfl, by omega⟩
    | qsq =>
      by_cases h1 : x = qtB
      · simp only [scanFrom, if_pos h1] at h
        obtain ⟨d', nu', c', r', p, hd, hnu, hc, hr⟩ := escPair_eq_ok.mp h
        have hrc' : r' < c' := by omega
        rw [hc, List.take_succ_cons]
        simp only [scanFrom, if_pos h1]
        exact escPair_eq_ok.mpr ⟨d', nu', c', r', ih p hrc', hd, hnu, rfl, by omega⟩
      by_cases h2 : x = commaB
      · simp only [scanFrom, if_neg h1, if_pos h2, ScanRes.ok.injEq] at h
        obtain ⟨hd, hnu, hl, hc, hr⟩ := h
        subst hd; subst hnu; subst hl
        rw [← hc]
        simp [scanFrom, if_neg h1, if_pos h2, hc, hr]
      by_cases h3 : x = lfB
      · simp only [scanFrom, if_neg h1, if_neg h2, if_pos h3, ScanRes.ok.injEq] at h
        obtain ⟨hd, hnu, hl, hc, hr⟩ := h
        subst hd; subst hnu; subst hl
        rw [← hc]
        simp [scanFrom, if_neg h1, if_neg h2, if_pos h3, hc, hr]
      by_cases h4 : x = crB
      · cases hh : rest.head? with
        | some y =>
          by_cases h5 : y = lfB
          · simp only [scanFrom, if_neg h1, if_neg h2, if_neg h3, if_pos h4, hh,
              if_pos h5, ScanRes.ok.injEq] at h
            obtain ⟨hd, hnu, hl, hc, hr⟩ := h
            subst hd; subst hnu; subst hl
            rw [← hc]
            cases rest with
            | nil => simp at hh
            | cons z tl =>
              simp only [List.head?_cons, Option.some.injEq] at hh
              subst hh; subst h5
              simp [scanFrom, if_neg h1, if_neg h2, if_neg h3, if_pos h4, hc, hr]
          · simp [scanFrom, if_neg h1, if_neg h2, if_neg h3, if_pos h4, hh,
              if_neg h5] at h
        | none =>
          simp [scanFrom, if_neg h1, if_neg h2, if_neg h3, if_pos h4, hh] at h
      · simp [scanFrom, if_neg h1, if_neg h2, if_neg h3, if_neg h4] at h

theorem scanField_ok_append {w : List Nat} {d nu l c r}
    (h : scanField false w = .ok d nu l c r) (b : Bool) (e : List Nat) :
    scanField b (w ++ e) = .ok d nu l c r := by
  cases w with
  | nil => simp [scanField] at h
  | cons x rest =>
    rw [List.cons_append]
    by_cases h1 : x = qtB
    · simp only [scanField, if_pos h1] at h ⊢
      obtain ⟨c', r', p, hc, hr⟩ := consSkip_eq_ok.mp h
      exact consSkip_eq_ok.mpr ⟨c', r', scanFrom_ok_append p b e, hc, hr⟩
    · simp only [scanField, if_neg h1] at h ⊢
      rw [← List.cons_append]
      exact scanFrom_ok_append h b e

theorem scanField_invalid_append {w : List Nat}
    (h : scanField false w = .invalid) (b : Bool) (e : List Nat) :
    scanField b (w ++ e) = .invalid := by
  cases w with
  | nil => simp [scanField] at h
  | cons x rest =>
    rw [List.cons_append]
    by_cases h1 : x = qtB
    · simp only [scanField, if_pos h1, consSkip_eq_invalid] at h ⊢
      exact scanFrom_invalid_append h b e
    · simp only [scanField, if_neg h1] at h ⊢
      rw [← List.cons_append]
      exact scanFrom_invalid_append h b e

theorem scanField_ok_bounds {atEnd : Bool} {w : List Nat} {d nu l c r}
    (h : scanField atEnd w = .ok d nu l c r) :
    r ≤ c ∧ c ≤ w.length := by
  cases w with
  | nil => simp [scanField] at h
  | cons x rest =>
    by_cases h1 : x = qtB
    · simp only [scanField, if_pos h1] at h
      obtain ⟨c', r', p, hc, hr⟩ := consSkip_eq_ok.mp h
      have := scanFrom_ok_bounds p
      simp only [List.length_cons]
      omega
    · simp only [scanField, if_neg h1] at h
      exact scanFrom_ok_bounds h

theorem scanField_ok_pos {atEnd : Bool} {w : List Nat} {d nu l c r}
    (h : scanField atEnd w = .ok d nu l c r) (hw : w ≠ []) : 1 ≤ c := by
  cases w with
  | nil => exact absurd rfl hw
  | cons x rest =>
    by_cases h1 : x = qtB
    · simp only [scanField, if_pos h1] at h
      obtain ⟨c', r', p, hc, hr⟩ := consSkip_eq_ok.mp h
      omega
    · simp only [scanField, if_neg h1] at h
      by_cases h2 : x = commaB
      · simp only [scanFrom, if_pos h2, ScanRes.ok.injEq] at h
        omega
      by_cases h3 : x = lfB
      · simp only [scanFrom, if_neg h2, if_pos h3, ScanRes.ok.injEq] at h
        omega
      by_cases h4 : x = crB
      · cases hh : rest.head? with
        | some y =>
          by_cases h5 : y = lfB
          · simp only [scanFrom, if_neg h2, if_neg h3, if_pos h4, hh, if_pos h5,
              ScanRes.ok.injEq] at h
            omega
          · simp only [scanFrom, if_neg h2, if_neg h3, if_pos h4, hh, if_neg h5] at h
            obtain ⟨d', c', r', p, hd, hc, hr⟩ := consData_eq_ok.mp h
            omega
        | none =>
          cases atEnd with
          | false => simp [scanFrom, if_neg h2, if_neg h3, if_pos h4, hh] at h
          | true =>
            simp only [scanFrom, if_neg h2, if_neg h3, if_pos h4, hh, if_pos rfl,
              ScanRes.ok.injEq] at h
            obtain ⟨-, -, -, hc, hr⟩ := h
            omega
      · simp only [scanFrom, if_neg h2, if_neg h3, if_neg h4] at h
        obtain ⟨d', c', r', p, hd, hc, hr⟩ := consData_eq_ok.mp h
        omega

theorem scanField_ok_take {u : List Nat} {d nu l c r}
    (h : scanField true u = .ok d nu l c r) (hrc : r < c) :
    scanField false (u.take c) = .ok d nu l c r := by
  cases u with
  | nil => simp [scanField] at h
  | cons x rest =>
    by_cases h1 : x = qtB
    · simp only [scanField, if_pos h1] at h
      obtain ⟨c', r', p, hc, hr⟩ := consSkip_eq_ok.mp h
      have hrc' : r' < c' := by omega
      rw [hc, List.take_succ_cons]
      simp only [scanField, if_pos h1]
      exact consSkip_eq_ok.mpr ⟨c', r', scanFrom_ok_take p hrc', rfl, by omega⟩
    · simp only [scanField, if_neg h1] at h
      have hthis := scanFrom_ok_take h hrc
      obtain ⟨m, hm⟩ : ∃ m, c = m + 1 := ⟨c - 1, by omega⟩
      subst hm
      rw [List.take_succ_cons] at hthis ⊢
      simp only [scanField, if_neg h1]
      exact hthis


/-! ### Engine and abstraction loops -/

theorem csvzLoop_nil_eof {cap chunk f : Nat} (hf : 1 ≤ f) (r0 : List Nat) :
    csvzLoop cap chunk f ⟨[], r0, true, false⟩ = ([], .CSVZ_ERR_EOF) := by
  obtain ⟨e, rfl⟩ : ∃ e, f = e + 1 := ⟨f - 1, by omega⟩
  simp [csvzLoop]

theorem absLoop_nil {cap f : Nat} (hf : 1 ≤ f) :
    absLoop cap f [] true false = ([], .CSVZ_ERR_EOF) := by
  obtain ⟨e, rfl⟩ : ∃ e, f = e + 1 := ⟨f - 1, by omega⟩
  simp [absLoop]

theorem csvzLoop_pending {cap chunk e : Nat} {r : List Nat} :
    csvzLoop cap chunk (e + 1) ⟨[], r, true, true⟩ =
      ((⟨[], true, false⟩ : csvz_field) :: (csvzLoop cap chunk e ⟨[], r, true, false⟩).1,
        (csvzLoop cap chunk e ⟨[], r, true, false⟩).2) := by
  simp [csvzLoop]

theorem csvzLoop_emit {cap chunk e : Nat} {w r : List Nat} {srcEof pending : Bool}
    {d : List Nat} {nu l : Bool} {c r' : Nat}
    (hg : ¬(w = [] ∧ srcEof = true)) (hscan : scanField srcEof w = .ok d nu l c r') :
    csvzLoop cap chunk (e + 1) ⟨w, r, srcEof, pending⟩ =
      ((⟨d, l, nu⟩ : csvz_field) ::
          (csvzLoop cap chunk e ⟨w.drop c, r, srcEof, decide (r' < c)⟩).1,
        (csvzLoop cap chunk e ⟨w.drop c, r, srcEof, decide (r' < c)⟩).2) := by
  simp only [csvzLoop]
  rw [if_neg hg, hscan]

theorem csvzLoop_invalid {cap chunk e : Nat} {w r : List Nat} {srcEof pending : Bool}
    (hg : ¬(w = [] ∧ srcEof = true)) (hscan : scanField srcEof w = .invalid) :
    csvzLoop cap chunk (e + 1) ⟨w, r, srcEof, pending⟩ = ([], .CSVZ_ERR_INVALID_QUOTES) := by
  simp only [csvzLoop]
  rw [if_neg hg, hscan]

theorem csvzLoop_ftl {cap chunk e : Nat} {w r : List Nat} {pending : Bool}
    (hscan : scanField false w = .needMore) (hcap : cap ≤ w.length) :
    csvzLoop cap chunk (e + 1) ⟨w, r, false, pending⟩ = ([], .CSVZ_ERR_FIELD_TOO_LONG) := by
  simp only [csvzLoop]
  rw [if_neg (by simp), hscan]
  simp only [Bool.false_eq_true, if_false, if_pos hcap]

theorem csvzLoop_flip {cap chunk e : Nat} {w : List Nat} {pending : Bool}
    (hscan : scanField false w = .needMore) (hcap : ¬cap ≤ w.length) :
    csvzLoop cap chunk (e + 1) ⟨w, [], false, pending⟩ =
      csvzLoop cap chunk e ⟨w, [], true, pending⟩ := by
  simp only [csvzLoop]
  rw [if_neg (by simp), hscan]
  simp only [Bool.false_eq_true, if_false, if_neg hcap]

theorem csvzLoop_pull {cap chunk e : Nat} {w r : List Nat} {pending : Bool}
    (hscan : scanField false w = .needMore) (hcap : ¬cap ≤ w.length) (hr : r ≠ []) :
    csvzLoop cap chunk (e + 1) ⟨w, r, false, pending⟩ =
      csvzLoop cap chunk e
        ⟨w ++ r.take (pullSize chunk (cap - w.length)),
          r.drop (pullSize chunk (cap - w.length)), false, pending⟩ := by
  simp only [csvzLoop]
  rw [if_neg (by simp), hscan]
  simp only [Bool.false_eq_true, if_false, if_neg hcap]

theorem absLoop_pending {cap a : Nat} :
    absLoop cap (a + 1) [] true true =
      ((⟨[], true, false⟩ : csvz_field) :: (absLoop cap a [] true false).1,
        (absLoop cap a [] true false).2) := by
  simp [absLoop]

theorem absLoop_emit {cap a : Nat} {u : List Nat} {srcEof pending : Bool}
    {d : List Nat} {nu l : Bool} {c r' : Nat}
    (hg : ¬(u = [] ∧ srcEof = true))
    (hscan : scanField srcEof (if srcEof then u else u.take cap) = .ok d nu l c r') :
    absLoop cap (a + 1) u srcEof pending =
      ((⟨d, l, nu⟩ : csvz_field) ::
          (absLoop cap a (u.drop c) srcEof (decide (r' < c))).1,
        (absLoop cap a (u.drop c) srcEof (decide (r' < c))).2) := by
  simp only [absLoop]
  rw [if_neg hg, hscan]

theorem absLoop_invalid {cap a : Nat} {u : List Nat} {srcEof pending : Bool}
    (hg : ¬(u = [] ∧ srcEof = true))
    (hscan : scanField srcEof (if srcEof then u else u.take cap) = .invalid) :
    absLoop cap (a + 1) u srcEof pending = ([], .CSVZ_ERR_INVALID_QUOTES) := by
  simp only [absLoop]
  rw [if_neg hg, hscan]

theorem absLoop_ftl {cap a : Nat} {u : List Nat} {pending : Bool}
    (hscan : scanField false (u.take cap) = .needMore) (hcap : cap ≤ u.length) :
    absLoop cap (a + 1) u false pending = ([], .CSVZ_ERR_FIELD_TOO_LONG) := by
  simp only [absLoop]
  rw [if_neg (by simp)]
  simp only [Bool.false_eq_true, if_false]
  rw [hscan]
  simp only [Bool.false_eq_true, if_false, if_pos hcap]

theorem absLoop_flip {cap a : Nat} {u : List Nat} {pending : Bool}
    (hscan : scanField false (u.take cap) = .needMore) (hcap : ¬cap ≤ u.length) :
    absLoop cap (a + 1) u false pending = absLoop cap a u true pending := by
  simp only [absLoop]
  rw [if_neg (by simp)]
  simp only [Bool.false_eq_true, if_false]
  rw [hscan]
  simp only [Bool.false_eq_true, if_false, if_neg hcap]

/-- The streaming engine loop coincides with the chunking-free abstraction on
the merged still-unparsed byte sequence, whatever the source granularity. -/
theorem csvzLoop_eq_absLoop (cap chunk : Nat) :
    ∀ fe, ∀ (st : EngSt) (fa : Nat),
      (st.srcEof = true → st.r = []) → st.w.length ≤ cap →
      3 * st.w.length + 4 * st.r.length + (cond st.srcEof 0 1) + 3 ≤ fe →
      st.w.length + st.r.length + (cond st.srcEof 0 1) + 2 ≤ fa →
      csvzLoop cap chunk fe st = absLoop cap fa (st.w ++ st.r) st.srcEof st.pending := by
  intro fe
  induction fe using Nat.strong_induction_on with
  | _ fe ih =>
    intro st fa hinv hwcap hfe hfa
    obtain ⟨w, r, srcEof, pending⟩ := st
    simp only at hinv hwcap hfe hfa
    obtain ⟨e, rfl⟩ : ∃ e, fe = e + 1 := ⟨fe - 1, by omega⟩
    obtain ⟨a, rfl⟩ : ∃ a, fa = a + 1 := ⟨fa - 1, by omega⟩
    cases srcEof with
    | true =>
      have hr0 : r = [] := hinv rfl
      subst hr0
      simp only [cond] at hfe hfa
      simp only [List.append_nil]
      by_cases hw0 : w = []
      · subst hw0
        cases pending with
        | false => rw [csvzLoop_nil_eof (by omega) [], absLoop_nil (by omega)]
        | true =>
          rw [csvzLoop_pending, absLoop_pending,
            csvzLoop_nil_eof (by omega) [], absLoop_nil (by omega)]
      · cases hscan : scanField true w with
        | ok d nu l c r' =>
          have hc1 : 1 ≤ c := scanField_ok_pos hscan hw0
          have hcb := scanField_ok_bounds hscan
          rw [csvzLoop_emit (by simp [hw0]) hscan,
            absLoop_emit (by simp [hw0]) (by simpa using hscan)]
          have hrec := ih e (by omega) ⟨w.drop c, [], true, decide (r' < c)⟩ a
            (fun _ => rfl) (by simp; omega)
            (by simp [cond]; omega)
            (by simp [cond]; omega)
          simp only [List.append_nil] at hrec
          rw [hrec]
        | invalid =>
          rw [csvzLoop_invalid (by simp [hw0]) hscan,
            absLoop_invalid (by simp [hw0]) (by simpa using hscan)]
        | needMore =>
          exact absurd hscan (scanField_true_ne_needMore hw0)
    | false =>
      simp only [cond] at hfe hfa
      cases hscan : scanField false w with
      | ok d nu l c r' =>
        have hwne : w ≠ [] := by
          intro h0; rw [h0] at hscan; simp [scanField] at hscan
        have hc1 : 1 ≤ c := scanField_ok_pos hscan hwne
        have hcb := scanField_ok_bounds hscan
        have htk : (w ++ r).take cap = w ++ r.take (cap - w.length) := by
          rw [List.take_append_eq_append_take, List.take_of_length_le hwcap]
        have habs : scanField false ((w ++ r).take cap) = .ok d nu l c r' := by
          rw [htk]; exact scanField_ok_append hscan false _
        rw [csvzLoop_emit (by simp) hscan,
          absLoop_emit (by simp) (by simpa using habs)]
        have hdrop : (w ++ r).drop c = w.drop c ++ r :=
          List.drop_append_of_le_length hcb.2
        have hrec := ih e (by omega) ⟨w.drop c, r, false, decide (r' < c)⟩ a
          (fun h0 => by cases h0) (by simp; omega)
          (by simp [cond]; omega)
          (by simp [cond]; omega)
        simp only at hrec
        rw [hrec, hdrop]
      | invalid =>
        have hwne : w ≠ [] := by
          intro h0; rw [h0] at hscan; simp [scanField] at hscan
        have htk : (w ++ r).take cap = w ++ r.take (cap - w.length) := by
          rw [List.take_append_eq_append_take, List.take_of_length_le hwcap]
        have habs : scanField false ((w ++ r).take cap) = .invalid := by
          rw [htk]; exact scanField_invalid_append hscan false _
        rw [csvzLoop_invalid (by simp) hscan,
          absLoop_invalid (by simp) (by simpa using habs)]
      | needMore =>
        by_cases hcapw : cap ≤ w.length
        · have hweq : w.length = cap := by omega
          have htk : (w ++ r).take cap = w := by
            rw [← hweq, List.take_left]
          have habs : scanField false ((w ++ r).take cap) = .needMore := by
            rw [htk]; exact hscan
          rw [csvzLoop_ftl hscan hcapw,
            absLoop_ftl habs (by simp; omega)]
        · by_cases hrnil : r = []
          · subst hrnil
            have htk : (w ++ ([] : List Nat)).take cap = w := by
              rw [List.append_nil, List.take_of_length_le (by omega)]
            have habs : scanField false ((w ++ ([] : List Nat)).take cap) = .needMore := by
              rw [htk]; exact hscan
            rw [csvzLoop_flip hscan hcapw, absLoop_flip habs (by simp; omega)]
            have hrec := ih e (by omega) ⟨w, [], true, pending⟩ a
              (fun _ => rfl) hwcap
              (by simp [cond]; omega)
              (by simp [cond] at hfa ⊢; omega)
            simpa using hrec
          · have hrne : r ≠ [] := hrnil
            have hk1 : 1 ≤ pullSize chunk (cap - w.length) := by
              unfold pullSize
              by_cases hch : chunk = 0
              · simp [hch]; omega
              · simp [hch]; omega
            have hkcap : pullSize chunk (cap - w.length) ≤ cap - w.length := by
              unfold pullSize
              by_cases hch : chunk = 0
              · simp [hch]
              · simp [hch]
            rw [csvzLoop_pull hscan hcapw hrne]
            have hkmin : 1 ≤ min (pullSize chunk (cap - w.length)) r.length := by
              have : 1 ≤ r.length := List.length_pos.mpr hrne
              omega
            have hrec := ih e (by omega)
              ⟨w ++ r.take (pullSize chunk (cap - w.length)),
                r.drop (pullSize chunk (cap - w.length)), false, pending⟩ (a + 1)
              (fun h0 => by cases h0)
              (by simp [List.length_append, List.length_take]; omega)
              (by simp [List.length_append, List.length_take, List.length_drop, cond]
                  omega)
              (by simp [List.length_append, List.length_take, List.length_drop, cond]
                  omega)
            simp only at hrec
            rw [hrec, List.append_assoc, List.take_append_drop]

/-- A complete engine run depends only on capacity and content, not on the
granularity with which the Byte Source delivers the content. -/
theorem csvzRun_eq_absRun (cap chunk : Nat) (content : List Nat) :
    csvzRun cap chunk content = absRun cap content := by
  unfold csvzRun absRun engineFuel absFuel
  have := csvzLoop_eq_absLoop cap chunk
    (3 * ([] : List Nat).length + 4 * content.length + (cond false 0 1) + 3)
    ⟨[], content, false, false⟩ (content.length + (cond false 0 1) + 2)
    (fun h => by cases h) (by simp) (by simp) (by simp)
  simpa using this

theorem parseLoopFull_pending {f : Nat} :
    parseLoopFull (f + 1) [] true =
      (((⟨[], true, false⟩ : csvz_field), 0, 0) :: (parseLoopFull f [] false).1,
        (parseLoopFull f [] false).2) := by
  simp [parseLoopFull]

theorem parseLoopFull_emit {f : Nat} {u : List Nat} {p : Bool} {d : List Nat}
    {nu l : Bool} {c r : Nat}
    (hu : u ≠ []) (hscan : scanField true u = .ok d nu l c r) :
    parseLoopFull (f + 1) u p =
      (((⟨d, l, nu⟩ : csvz_field), c, r) ::
          (parseLoopFull f (u.drop c) (decide (r < c))).1,
        (parseLoopFull f (u.drop c) (decide (r < c))).2) := by
  simp only [parseLoopFull, if_neg hu]
  rw [hscan]

theorem parseLoopFull_invalid {f : Nat} {u : List Nat} {p : Bool}
    (hu : u ≠ []) (hscan : scanField true u = .invalid) :
    parseLoopFull (f + 1) u p = ([], .CSVZ_ERR_INVALID_QUOTES) := by
  simp only [parseLoopFull, if_neg hu]
  rw [hscan]

theorem parseLoopFull_nil {f : Nat} (hf : 1 ≤ f) :
    parseLoopFull f [] false = ([], .CSVZ_ERR_EOF) := by
  obtain ⟨e, rfl⟩ : ∃ e, f = e + 1 := ⟨f - 1, by omega⟩
  simp [parseLoopFull]

/-- The pure parsing loop gives the same answer under any sufficient fuel. -/
theorem parseLoopFull_fuel :
    ∀ (n : Nat) (u : List Nat), u.length ≤ n → ∀ {f1 f2 : Nat} {p : Bool},
      u.length + 2 ≤ f1 → u.length + 2 ≤ f2 →
      parseLoopFull f1 u p = parseLoopFull f2 u p := by
  intro n
  induction n with
  | zero =>
    intro u hu f1 f2 p h1 h2
    have hu0 : u = [] := List.length_eq_zero.mp (by omega)
    subst hu0
    obtain ⟨a, rfl⟩ : ∃ a, f1 = a + 1 := ⟨f1 - 1, by omega⟩
    obtain ⟨b, rfl⟩ : ∃ b, f2 = b + 1 := ⟨f2 - 1, by omega⟩
    cases p with
    | false => simp [parseLoopFull]
    | true =>
      rw [parseLoopFull_pending, parseLoopFull_pending,
        parseLoopFull_nil (by omega), parseLoopFull_nil (by omega)]
  | succ m ih =>
    intro u hu f1 f2 p h1 h2
    by_cases hu0 : u = []
    · subst hu0
      obtain ⟨a, rfl⟩ : ∃ a, f1 = a + 1 := ⟨f1 - 1, by omega⟩
      obtain ⟨b, rfl⟩ : ∃ b, f2 = b + 1 := ⟨f2 - 1, by omega⟩
      cases p with
      | false => simp [parseLoopFull]
      | true =>
        rw [parseLoopFull_pending, parseLoopFull_pending,
          parseLoopFull_nil (by omega), parseLoopFull_nil (by omega)]
    · obtain ⟨a, rfl⟩ : ∃ a, f1 = a + 1 := ⟨f1 - 1, by omega⟩
      obtain ⟨b, rfl⟩ : ∃ b, f2 = b + 1 := ⟨f2 - 1, by omega⟩
      cases hscan : scanField true u with
      | ok d nu l c r =>
        have hc1 : 1 ≤ c := scanField_ok_pos hscan hu0
        have hcb := scanField_ok_bounds hscan
        rw [parseLoopFull_emit hu0 hscan, parseLoopFull_emit hu0 hscan]
        rw [@ih (u.drop c) (by simp; omega) a b (decide (r < c))
          (by simp; omega) (by simp; omega)]
      | invalid =>
        rw [parseLoopFull_invalid hu0 hscan, parseLoopFull_invalid hu0 hscan]
      | needMore =>
        exact absurd hscan (scanField_true_ne_needMore hu0)

/-! ### Unescape lemmas -/

theorem unescape_length_le (l : List Nat) :
    (csvz_unescape_in_place l).length ≤ l.length := by
  generalize hn : l.length = n
  induction n using Nat.strong_induction_on generalizing l with
  | _ n ih =>
    cases l with
    | nil => simp [csvz_unescape_in_place]
    | cons a tl =>
      cases tl with
      | nil =>
        simp only [List.length_cons, List.length_nil] at hn
        simp only [csvz_unescape_in_place, List.length_cons, List.length_nil]
        omega
      | cons b rest =>
        simp only [csvz_unescape_in_place]
        simp only [List.length_cons] at hn
        by_cases h : a = qtB ∧ b = qtB
        · rw [if_pos h]
          have := ih rest.length (by omega) rest rfl
          simp only [List.length_cons]
          omega
        · rw [if_neg h]
          have := ih (b :: rest).length (by simp; omega) (b :: rest) rfl
          simp only [List.length_cons] at this ⊢
          omega

theorem unescape_no_doubled_eq (l : List Nat)
    (h : hasDoubledQuote l = false) : csvz_unescape_in_place l = l := by
  generalize hn : l.length = n
  induction n using Nat.strong_induction_on generalizing l with
  | _ n ih =>
    cases l with
    | nil => simp [csvz_unescape_in_place]
    | cons a tl =>
      cases tl with
      | nil => simp [csvz_unescape_in_place]
      | cons b rest =>
        simp only [csvz_unescape_in_place]
        simp only [hasDoubledQuote, Bool.or_eq_false_iff, Bool.and_eq_false_iff] at h
        have hab : ¬(a = qtB ∧ b = qtB) := by
          rcases h.1 with h' | h' <;> simp at h' <;> tauto
        rw [if_neg hab]
        simp only [List.length_cons] at hn
        rw [ih (b :: rest).length (by simp; omega) (b :: rest) h.2 rfl]

/-! ### Claim theorems -/

/-- C2: for every CSV byte content and every Scan Buffer capacity at least
the longest raw field, a Byte Source delivering one byte per pull produces
exactly the same field sequence, flags and final status as a source
delivering as much as fits in a single read. -/
theorem claim_C2_buffer_boundary_invariance (content : List Nat) (cap : Nat)
    (hcap : maxFieldSpan content ≤ cap) :
    csvzRun cap 1 content = csvzRun cap 0 content := by
  rw [csvzRun_eq_absRun, csvzRun_eq_absRun]

theorem claim_C2_buffer_boundary_invariance_witness :
    maxFieldSpan [97, commaB, 98] ≤ 2 ∧ csvzRun 2 1 [97, commaB, 98] = csvzRun 2 0 [97, commaB, 98] :=
  ⟨by decide, claim_C2_buffer_boundary_invariance [97, commaB, 98] 2 (by decide)⟩

/-- C3: unescaping never lengthens a byte range, and the quoted field
`"a""b"` (6 raw input bytes) is reported with raw data `a""b` and
`needs_unescape = true`, and unescapes to `a"b` (3 bytes). -/
theorem claim_C3_unescape_collapses :
    (∀ l : List Nat, (csvz_unescape_in_place l).length ≤ l.length) ∧
    parseContent [qtB, 97, qtB, qtB, 98, qtB] =
      ([⟨[97, qtB, qtB, 98], true, true⟩], .CSVZ_ERR_EOF) ∧
    csvz_unescape_in_place [97, qtB, qtB, 98] = [97, qtB, 98] ∧
    (csvz_unescape_in_place [97, qtB, qtB, 98]).length = 3 :=
  ⟨unescape_length_le, by decide, by decide, by decide⟩

/-- C4 counterexample: an unquoted field whose data contains a doubled quote
is returned with `needs_unescape = false`, yet `csvz_unescape_in_place` is
not the identity on it, refuting the claim that unescape is the identity on
every field reported with `needs_unescape = false`. -/
theorem claim_C4_counterexample :
    parseContent [97, qtB, qtB, 98] = ([⟨[97, qtB, qtB, 98], true, false⟩], .CSVZ_ERR_EOF) ∧
    csvz_unescape_in_place [97, qtB, qtB, 98] ≠ [97, qtB, qtB, 98] := by
  constructor
  · decide
  · decide

/-- C4 (amended): on every byte range that contains no doubled-quote pair,
`csvz_unescape_in_place` is the identity (same bytes, hence same length), so
calling it on such a field is always safe. -/
theorem claim_C4_amended_no_doubled_identity (l : List Nat)
    (h : hasDoubledQuote l = false) :
    csvz_unescape_in_place l = l ∧ (csvz_unescape_in_place l).length = l.length := by
  have := unescape_no_doubled_eq l h
  exact ⟨this, by rw [this]⟩

theorem claim_C4_amended_no_doubled_identity_witness :
    hasDoubledQuote [97, qtB, 98] = false ∧
      (csvz_unescape_in_place [97, qtB, 98] = [97, qtB, 98] ∧
        (csvz_unescape_in_place [97, qtB, 98]).length = [97, qtB, 98].length) :=
  ⟨by decide, claim_C4_amended_no_doubled_identity [97, qtB, 98] (by decide)⟩

/-- C5: in the `QuotedSeenQuote` state, any next byte that is not a quote,
comma or line-break byte is the INVALID_QUOTES condition, and the concrete
input `"ab"c,` makes the engine return CSVZ_ERR_INVALID_QUOTES. -/
theorem claim_C5_invalid_quotes (b : Nat) (rest : List Nat) (atEnd : Bool)
    (h1 : b ≠ qtB) (h2 : b ≠ commaB) (h3 : b ≠ lfB) (h4 : b ≠ crB) :
    scanFrom atEnd .qsq (b :: rest) = .invalid ∧
    csvzRun 64 1 [qtB, 97, 98, qtB, 99, commaB] = ([], .CSVZ_ERR_INVALID_QUOTES) := by
  constructor
  · simp [scanFrom, h1, h2, h3, h4]
  · decide

theorem claim_C5_invalid_quotes_witness :
    scanFrom true .qsq [99] = .invalid ∧
    csvzRun 64 1 [qtB, 97, 98, qtB, 99, commaB] = ([], .CSVZ_ERR_INVALID_QUOTES) :=
  claim_C5_invalid_quotes 99 [] true (by decide) (by decide) (by decide) (by decide)

/-- C7: a pull result of zero bytes with status OK is interpreted exactly as
end of input: `csvz_iter_next` returns the same error code, field, window and
pending flag as for a pull reporting EOF, and in particular never reports
CSVZ_ERR_READ_FAILED for such a pull. -/
theorem claim_C7_zero_ok_read_is_eof (cap : Nat) (w : List Nat) (pending : Bool)
    (tl : List csvz_read_result) :
    applyRead ⟨[], .CSVZ_READ_STATUS_OK⟩ = .atEof ∧
    ((csvz_iter_next cap w pending (⟨[], .CSVZ_READ_STATUS_OK⟩ :: tl)).err =
        (csvz_iter_next cap w pending (⟨[], .CSVZ_READ_STATUS_EOF⟩ :: tl)).err ∧
      (csvz_iter_next cap w pending (⟨[], .CSVZ_READ_STATUS_OK⟩ :: tl)).field =
        (csvz_iter_next cap w pending (⟨[], .CSVZ_READ_STATUS_EOF⟩ :: tl)).field ∧
      (csvz_iter_next cap w pending (⟨[], .CSVZ_READ_STATUS_OK⟩ :: tl)).w =
        (csvz_iter_next cap w pending (⟨[], .CSVZ_READ_STATUS_EOF⟩ :: tl)).w ∧
      (csvz_iter_next cap w pending (⟨[], .CSVZ_READ_STATUS_OK⟩ :: tl)).pending =
        (csvz_iter_next cap w pending (⟨[], .CSVZ_READ_STATUS_EOF⟩ :: tl)).pending) ∧
    (csvz_iter_next cap w pending (⟨[], .CSVZ_READ_STATUS_OK⟩ :: tl)).err ≠
      .CSVZ_ERR_READ_FAILED := by
  have hfin : (finishAtEof w pending).1 ≠ .CSVZ_ERR_READ_FAILED := by
    unfold finishAtEof
    by_cases hw : w = []
    · rw [if_pos hw]
      cases pending <;> simp
    · rw [if_neg hw]
      cases hscan : scanField true w <;> simp
  refine ⟨rfl, ?_, ?_⟩
  · simp only [csvz_iter_next]
    cases hscan : scanField false w with
    | ok d nu l c r => simp
    | invalid => simp
    | needMore =>
      by_cases hcap : cap ≤ w.length
      · simp [hcap]
      · simp [hcap, applyRead]
  · simp only [csvz_iter_next]
    cases hscan : scanField false w with
    | ok d nu l c r => simp
    | invalid => simp
    | needMore =>
      by_cases hcap : cap ≤ w.length
      · simp [hcap]
      · simpa [hcap, applyRead] using hfin

/-- C9: in both example programs' final `switch`, the INVALID_QUOTES case
prints exactly the invalid-quotes message with the tracked row and column
and, because the case falls through into the empty EOF case and `main` ends
without a return, the process exits with status 0 and never prints the
default error message for this error; indeed every terminal error code leads
to exit status 0. -/
theorem claim_C9_invalid_quotes_fallthrough (row col : Nat) :
    exampleEpilogue .CSVZ_ERR_INVALID_QUOTES row col = ([.invalidQuotes row col], 0) ∧
    ∀ e : csvz_error, (exampleEpilogue e row col).2 = 0 :=
  ⟨rfl, fun e => by cases e <;> rfl⟩

/-- C10: `CSVZ_OK` is the first enumerator with value 0, the six
failure/sentinel codes take the pairwise-distinct values 1 through 6, and a
`csvz_iter_next` result denotes success exactly when its value is 0. -/
theorem claim_C10_error_enum_values :
    csvz_error.CSVZ_OK.toNat = 0 ∧ csvz_error.CSVZ_ERR_OOM.toNat = 1 ∧
    csvz_error.CSVZ_ERR_FIELD_TOO_LONG.toNat = 2 ∧ csvz_error.CSVZ_ERR_EOF.toNat = 3 ∧
    csvz_error.CSVZ_ERR_INVALID_QUOTES.toNat = 4 ∧
    csvz_error.CSVZ_ERR_READ_FAILED.toNat = 5 ∧ csvz_error.CSVZ_ERR_OPEN_ERROR.toNat = 6 ∧
    ∀ e : csvz_error, (e = .CSVZ_OK ↔ e.toNat = 0) := by
  refine ⟨rfl, rfl, rfl, rfl, rfl, rfl, rfl, ?_⟩
  intro e
  cases e <;> simp [csvz_error.toNat]

/-- C8: a `csvz_iter_next` call at true end of input with an empty current
field and no delimiter just consumed reports CSVZ_ERR_EOF and populates no
field, while the same call right after a consumed field/row terminator
returns a genuine zero-length field with CSVZ_OK; concretely `a,` and `a\n`
parse to a field `a` followed by a zero-length field, while `a` alone yields
only the field `a` before EOF. -/
theorem claim_C8_eof_vs_trailing_empty (cap : Nat) (hcap : 0 < cap) :
    (csvz_iter_next cap [] false []).err = .CSVZ_ERR_EOF ∧
    (csvz_iter_next cap [] false []).field = none ∧
    (csvz_iter_next cap [] true []).err = .CSVZ_OK ∧
    (csvz_iter_next cap [] true []).field = some ⟨[], true, false⟩ ∧
    parseContent [97, commaB] =
      ([⟨[97], false, false⟩, ⟨[], true, false⟩], .CSVZ_ERR_EOF) ∧
    parseContent [97, lfB] =
      ([⟨[97], true, false⟩, ⟨[], true, false⟩], .CSVZ_ERR_EOF) ∧
    parseContent [97] = ([⟨[97], true, false⟩], .CSVZ_ERR_EOF) := by
  have hne : ¬cap ≤ ([] : List Nat).length := by simp; omega
  have h0 : cap ≠ 0 := by omega
  refine ⟨?_, ?_, ?_, ?_, by decide, by decide, by decide⟩ <;>
    simp [csvz_iter_next, scanField, hne, finishAtEof, h0]

theorem claim_C8_eof_vs_trailing_empty_witness :
    0 < 64 ∧ (csvz_iter_next 64 [] false []).err = .CSVZ_ERR_EOF :=
  ⟨by decide, (claim_C8_eof_vs_trailing_empty 64 (by decide)).1⟩

/-- A scan closed by end of input (no delimiter, `raw = consumed`) consumed
the entire window. -/
theorem scanFrom_ok_eof_all {w : List Nat} :
    ∀ {s d nu l c r}, scanFrom true s w = .ok d nu l c r → r = c → c = w.length := by
  induction w with
  | nil =>
    intro s d nu l c r h hrc
    simp only [List.length_nil]
    cases s <;> simp [scanFrom] at h <;> omega
  | cons x rest ih =>
    intro s d nu l c r h hrc
    simp only [List.length_cons]
    cases s with
    | unq =>
      by_cases h1 : x = commaB
      · simp only [scanFrom, if_pos h1, ScanRes.ok.injEq] at h
        omega
      by_cases h2 : x = lfB
      · simp only [scanFrom, if_neg h1, if_pos h2, ScanRes.ok.injEq] at h
        omega
      by_cases h3 : x = crB
      · cases hh : rest.head? with
        | some y =>
          by_cases h4 : y = lfB
          · simp only [scanFrom, if_neg h1, if_neg h2, if_pos h3, hh, if_pos h4,
              ScanRes.ok.injEq] at h
            omega
          · simp only [scanFrom, if_neg h1, if_neg h2, if_pos h3, hh, if_neg h4] at h
            obtain ⟨d', c', r', p, hd, hc, hr⟩ := consData_eq_ok.mp h
            have := ih p (by omega)
            omega
        | none =>
          have hr0 : rest = [] := by
            cases rest with
            | nil => rfl
            | cons z tl => simp at hh
          subst hr0
          simp only [scanFrom, if_neg h1, if_neg h2, if_pos h3, List.head?_nil,
            if_pos rfl, ScanRes.ok.injEq] at h
          obtain ⟨-, -, -, hc, hr⟩ := h
          simp only [List.length_nil]
      · simp only [scanFrom, if_neg h1, if_neg h2, if_neg h3] at h
        obtain ⟨d', c', r', p, hd, hc, hr⟩ := consData_eq_ok.mp h
        have := ih p (by omega)
        omega
    | q =>
      by_cases h1 : x = qtB
      · simp only [scanFrom, if_pos h1] at h
        obtain ⟨c', r', p, hc, hr⟩ := consSkip_eq_ok.mp h
        have := ih p (by omega)
        omega
      · simp only [scanFrom, if_neg h1] at h
        obtain ⟨d', c', r', p, hd, hc, hr⟩ := consData_eq_ok.mp h
        have := ih p (by omega)
        omega
    | qsq =>
      by_cases h1 : x = qtB
      · simp only [scanFrom, if_pos h1] at h
        obtain ⟨d', nu', c', r', p, hd, hnu, hc, hr⟩ := escPair_eq_ok.mp h
        have := ih p (by omega)
        omega
      by_cases h2 : x = commaB
      · simp only [scanFrom, if_neg h1, if_pos h2, ScanRes.ok.injEq] at h
        omega
      by_cases h3 : x = lfB
      · simp only [scanFrom, if_neg h1, if_neg h2, if_pos h3, ScanRes.ok.injEq] at h
        omega
      by_cases h4 : x = crB
      · cases hh : rest.head? with
        | some y =>
          by_cases h5 : y = lfB
          · simp only [scanFrom, if_neg h1, if_neg h2, if_neg h3, if_pos h4, hh,
              if_pos h5, ScanRes.ok.injEq] at h
            omega
          · simp [scanFrom, if_neg h1, if_neg h2, if_neg h3, if_pos h4, hh,
              if_neg h5] at h
        | none =>
          simp [scanFrom, if_neg h1, if_neg h2, if_neg h3, if_pos h4, hh] at h
      · simp [scanFrom, if_neg h1, if_neg h2, if_neg h3, if_neg h4] at h

theorem scanField_ok_eof_all {u : List Nat} {d : List Nat} {nu l : Bool} {c r : Nat}
    (h : scanField true u = .ok d nu l c r) (hrc : r = c) : c = u.length := by
  cases u with
  | nil => simp [scanField] at h
  | cons x rest =>
    by_cases h1 : x = qtB
    · simp only [scanField, if_pos h1] at h
      obtain ⟨c', r', p, hc, hr⟩ := consSkip_eq_ok.mp h
      have := scanFrom_ok_eof_all p (by omega)
      simp
      omega
    · simp only [scanField, if_neg h1] at h
      exact scanFrom_ok_eof_all h hrc

/-- Every entry of the pure parse satisfies `raw ≤ consumed`. -/
theorem parseLoopFull_r_le_c :
    ∀ (f : Nat) (u : List Nat) (p : Bool),
      ∀ e ∈ (parseLoopFull f u p).1, e.2.2 ≤ e.2.1 := by
  intro f
  induction f with
  | zero => intro u p e he; simp [parseLoopFull] at he
  | succ g ih =>
    intro u p e he
    by_cases hu : u = []
    · subst hu
      cases p with
      | false => simp [parseLoopFull] at he
      | true =>
        rw [parseLoopFull_pending] at he
        simp only [List.mem_cons] at he
        rcases he with he | he
        · subst he; simp
        · exact ih [] false e he
    · cases hscan : scanField true u with
      | ok d nu l c r =>
        rw [parseLoopFull_emit hu hscan] at he
        simp only [List.mem_cons] at he
        rcases he with he | he
        · subst he
          exact (scanField_ok_bounds hscan).1
        · exact ih (u.drop c) (decide (r < c)) e he
      | invalid => rw [parseLoopFull_invalid hu hscan] at he; simp at he
      | needMore => exact absurd hscan (scanField_true_ne_needMore hu)

theorem takeWhile_length_le_of_get {A : Type} (f : A → Bool) :
    ∀ (l : List A) (j : Nat) (e : A), l.get? j = some e → f e = false →
      (l.takeWhile f).length ≤ j := by
  intro l
  induction l with
  | nil => intro j e hj hf; simp at hj
  | cons x tl ih =>
    intro j e hj hf
    cases j with
    | zero =>
      simp only [List.get?] at hj
      injection hj with hj
      subst hj
      simp [List.takeWhile_cons, hf]
    | succ m =>
      simp only [List.get?] at hj
      by_cases hx : f x
      · simp only [List.takeWhile_cons, hx, if_true, List.length_cons]
        exact Nat.succ_le_succ (ih m e hj hf)
      · simp only [List.takeWhile_cons]
        rw [if_neg (by simp [hx])]
        simp

/-- If some field of the pure parse needs more bytes than the capacity, the
capacity-limited abstraction emits exactly the fields before the first such
field and then stops with FIELD_TOO_LONG. -/
theorem absLoop_ftl_of_violation (cap : Nat) :
    ∀ (n : Nat) (u : List Nat) (p : Bool) (fa : Nat), u.length ≤ n →
      u.length + 3 ≤ fa →
      (∃ e ∈ (parseLoopFull (parseFuel u) u p).1, cap < e.2.1) →
      absLoop cap fa u false p =
        (((parseLoopFull (parseFuel u) u p).1.takeWhile
            (fun e => decide (e.2.1 ≤ cap))).map (·.1),
          .CSVZ_ERR_FIELD_TOO_LONG) := by
  intro n
  induction n with
  | zero =>
    intro u p fa hu hfa hex
    have hu0 : u = [] := List.length_eq_zero.mp (by omega)
    subst hu0
    exfalso
    obtain ⟨e, he, hce⟩ := hex
    cases p with
    | false =>
      rw [(by decide : parseLoopFull (parseFuel []) [] false =
        ([], .CSVZ_ERR_EOF))] at he
      simp at he
    | true =>
      rw [(by decide : parseLoopFull (parseFuel []) [] true =
        ([(((⟨[], true, false⟩ : csvz_field)), 0, 0)], .CSVZ_ERR_EOF))] at he
      simp at he
      rw [he] at hce
      simp at hce
  | succ m ih =>
    intro u p fa hu hfa hex
    by_cases hu0 : u = []
    · subst hu0
      exfalso
      obtain ⟨e, he, hce⟩ := hex
      cases p with
      | false =>
        rw [(by decide : parseLoopFull (parseFuel []) [] false =
          ([], .CSVZ_ERR_EOF))] at he
        simp at he
      | true =>
        rw [(by decide : parseLoopFull (parseFuel []) [] true =
          ([(((⟨[], true, false⟩ : csvz_field)), 0, 0)], .CSVZ_ERR_EOF))] at he
        simp at he
        rw [he] at hce
        simp at hce
    · obtain ⟨a, rfl⟩ : ∃ a, fa = a + 1 := ⟨fa - 1, by omega⟩
      have hpf : parseFuel u = (u.length + 1) + 1 := rfl
      cases hscan : scanField true u with
      | needMore => exact absurd hscan (scanField_true_ne_needMore hu0)
      | invalid =>
        exfalso
        obtain ⟨e, he, hce⟩ := hex
        rw [hpf, parseLoopFull_invalid hu0 hscan] at he
        simp at he
      | ok d nu l c r =>
        have hc1 : 1 ≤ c := scanField_ok_pos hscan hu0
        have hcb := scanField_ok_bounds hscan
        have hemit : parseLoopFull (parseFuel u) u p =
            (((⟨d, l, nu⟩ : csvz_field), c, r) ::
                (parseLoopFull (u.length + 1) (u.drop c) (decide (r < c))).1,
              (parseLoopFull (u.length + 1) (u.drop c) (decide (r < c))).2) := by
          rw [hpf, parseLoopFull_emit hu0 hscan]
        have hfuel : parseLoopFull (u.length + 1) (u.drop c) (decide (r < c)) =
            parseLoopFull (parseFuel (u.drop c)) (u.drop c) (decide (r < c)) :=
          parseLoopFull_fuel (u.drop c).length _ le_rfl
            (by simp [parseFuel]; omega) (by simp [parseFuel])
        by_cases hcap : cap < c
        · cases habs : scanField false (u.take cap) with
          | ok d' nu' l' c' r' =>
            exfalso
            have hext := scanField_ok_append habs true (u.drop cap)
            rw [List.take_append_drop, hscan] at hext
            injection hext with e1 e2 e3 e4 e5
            have hb := scanField_ok_bounds habs
            have : (u.take cap).length ≤ cap := by
              simp [List.length_take]
            omega
          | invalid =>
            exfalso
            have hext := scanField_invalid_append habs true (u.drop cap)
            rw [List.take_append_drop, hscan] at hext
            cases hext
          | needMore =>
            rw [absLoop_ftl habs (by omega)]
            rw [hemit]
            simp only [List.takeWhile_cons]
            rw [if_neg (by simp; omega)]
            simp
        · push_neg at hcap
          by_cases hrc : r < c
          · have h1 := scanField_ok_take hscan hrc
            have h2 := scanField_ok_append h1 false ((u.take cap).drop c)
            have h3 : u.take c ++ (u.take cap).drop c = u.take cap := by
              conv_rhs => rw [← List.take_append_drop c (u.take cap)]
              rw [List.take_take, min_eq_left hcap]
            rw [h3] at h2
            have hvio : ∃ e ∈ (parseLoopFull (parseFuel (u.drop c)) (u.drop c)
                (decide (r < c))).1, cap < e.2.1 := by
              obtain ⟨e, he, hce⟩ := hex
              rw [hemit] at he
              simp only [List.mem_cons] at he
              rcases he with he | he
              · exfalso; rw [he] at hce; simp at hce; omega
              · rw [hfuel] at he
                exact ⟨e, he, hce⟩
            have hihres := ih (u.drop c) (decide (r < c)) a
              (by simp; omega) (by simp; omega) hvio
            rw [absLoop_emit (by simp [hu0]) (by simpa using h2)]
            rw [hemit]
            simp only [List.takeWhile_cons]
            rw [if_pos (by simp; omega)]
            simp only [List.map_cons]
            rw [hfuel, hihres]
          · have hreqc : r = c := by omega
            have hall : c = u.length := scanField_ok_eof_all hscan hreqc
            exfalso
            obtain ⟨e, he, hce⟩ := hex
            rw [hemit] at he
            simp only [List.mem_cons] at he
            rcases he with he | he
            · rw [he] at hce; simp at hce; omega
            · have hdrop : u.drop c = [] := by
                rw [hall]; exact List.drop_length u
              rw [hdrop] at he
              have : decide (r < c) = false := by simp; omega
              rw [this, parseLoopFull_nil (by omega)] at he
              simp at he

/-- C6: whenever some field's raw encoded bytes exceed the Scan Buffer
capacity, the engine run ends with CSVZ_ERR_FIELD_TOO_LONG, the too-long
field itself is never produced (at most the fields strictly before it are),
and whatever was produced is a prefix of the true field sequence — no
further progress is claimed for that field.  This holds for every source
granularity, in particular after the compaction-exhausted state the
condition is terminal. -/
theorem claim_C6_field_too_long (content : List Nat) (cap chunk j rj : Nat)
    (hj : (fieldSpans content).get? j = some rj) (hr : cap < rj) :
    (csvzRun cap chunk content).2 = .CSVZ_ERR_FIELD_TOO_LONG ∧
    (csvzRun cap chunk content).1.length ≤ j ∧
    ∃ t, (parseContent content).1 = (csvzRun cap chunk content).1 ++ t := by
  have hj' : ∃ e, (parseLoopFull (parseFuel content) content false).1.get? j = some e ∧
      e.2.2 = rj := by
    simp only [fieldSpans, fieldCosts, List.get?_map, Option.map_eq_some'] at hj
    obtain ⟨x, hx1, hx2⟩ := hj
    obtain ⟨e, he1, he2⟩ := hx1
    exact ⟨e, he1, by rw [← hx2, ← he2]⟩
  obtain ⟨e, hget, herj⟩ := hj'
  have hmem : e ∈ (parseLoopFull (parseFuel content) content false).1 :=
    List.get?_mem hget
  have hrc : e.2.2 ≤ e.2.1 := parseLoopFull_r_le_c _ _ _ e hmem
  have hvio : ∃ e ∈ (parseLoopFull (parseFuel content) content false).1,
      cap < e.2.1 := ⟨e, hmem, by omega⟩
  have habs := absLoop_ftl_of_violation cap content.length content false
    (absFuel content false) le_rfl (by simp [absFuel]) hvio
  have hrun : csvzRun cap chunk content =
      (((parseLoopFull (parseFuel content) content false).1.takeWhile
          (fun e => decide (e.2.1 ≤ cap))).map (·.1),
        .CSVZ_ERR_FIELD_TOO_LONG) := by
    rw [csvzRun_eq_absRun, absRun, habs]
  refine ⟨by rw [hrun], ?_, ?_⟩
  · rw [hrun]
    simp only [List.length_map]
    exact takeWhile_length_le_of_get _ _ j e hget (by simp; omega)
  · refine ⟨((parseLoopFull (parseFuel content) content false).1.dropWhile
      (fun e => decide (e.2.1 ≤ cap))).map (·.1), ?_⟩
    rw [hrun]
    simp only [parseContent]
    rw [← List.map_append, List.takeWhile_append_dropWhile]

theorem claim_C6_field_too_long_witness :
    (fieldSpans [97, 98, 99]).get? 0 = some 3 ∧ 2 < 3 ∧
    ((csvzRun 2 1 [97, 98, 99]).2 = .CSVZ_ERR_FIELD_TOO_LONG ∧
      (csvzRun 2 1 [97, 98, 99]).1.length ≤ 0 ∧
      ∃ t, (parseContent [97, 98, 99]).1 = (csvzRun 2 1 [97, 98, 99]).1 ++ t) :=
  ⟨by decide, by decide, claim_C6_field_too_long [97, 98, 99] 2 1 0 3 (by decide) (by decide)⟩

/-! ### Parsing well-formed encoded inputs (claim C1) -/

theorem scanFrom_unq_plain (pc : List Nat)
    (hwf : ∀ b ∈ pc, b ≠ commaB ∧ b ≠ qtB ∧ b ≠ lfB ∧ b ≠ crB) :
    (∀ rest, scanFrom true .unq (pc ++ commaB :: rest) =
      .ok pc false false (pc.length + 1) pc.length) ∧
    (∀ rest, scanFrom true .unq (pc ++ lfB :: rest) =
      .ok pc false true (pc.length + 1) pc.length) ∧
    scanFrom true .unq pc = .ok pc false true pc.length pc.length := by
  induction pc with
  | nil =>
    refine ⟨fun rest => ?_, fun rest => ?_, ?_⟩ <;> simp [scanFrom]
  | cons b pcs ih =>
    obtain ⟨hb1, hb2, hb3, hb4⟩ := hwf b (List.mem_cons_self b pcs)
    have ihs := ih (fun x hx => hwf x (List.mem_cons_of_mem _ hx))
    refine ⟨fun rest => ?_, fun rest => ?_, ?_⟩
    · rw [List.cons_append]
      simp only [scanFrom, if_neg hb1, if_neg hb3, if_neg hb4]
      rw [ihs.1 rest]
      simp [ScanRes.consData]
    · rw [List.cons_append]
      simp only [scanFrom, if_neg hb1, if_neg hb3, if_neg hb4]
      rw [ihs.2.1 rest]
      simp [ScanRes.consData]
    · simp only [scanFrom, if_neg hb1, if_neg hb3, if_neg hb4]
      rw [ihs.2.2]
      simp [ScanRes.consData]

theorem escQuotes_cons_qt (qcs : List Nat) :
    escQuotes (qtB :: qcs) = qtB :: qtB :: escQuotes qcs := by
  simp [escQuotes]

theorem escQuotes_cons_ne {b : Nat} (qcs : List Nat) (hb : b ≠ qtB) :
    escQuotes (b :: qcs) = b :: escQuotes qcs := by
  simp [escQuotes, hb]

theorem scanFrom_q_escQuotes (qc : List Nat) :
    ∀ {tail : List Nat} {d : List Nat} {nu l : Bool} {c r : Nat},
      scanFrom true .q tail = .ok d nu l c r →
      scanFrom true .q (escQuotes qc ++ tail) =
        .ok (escQuotes qc ++ d) (qc.contains qtB || nu) l
          (c + (escQuotes qc).length) (r + (escQuotes qc).length) := by
  induction qc with
  | nil =>
    intro tail d nu l c r h
    simpa [escQuotes] using h
  | cons b qcs ih =>
    intro tail d nu l c r h
    by_cases hb : b = qtB
    · subst hb
      rw [escQuotes_cons_qt, List.cons_append, List.cons_append]
      simp only [scanFrom, if_pos rfl]
      rw [ih h]
      simp [ScanRes.escPair, ScanRes.consSkip, List.contains_cons] <;> omega
    · rw [escQuotes_cons_ne qcs hb, List.cons_append]
      simp only [scanFrom, if_neg hb]
      rw [ih h]
      simp [ScanRes.consData, List.contains_cons, Ne.symm hb] <;> omega

theorem scanFrom_q_close_comma (rest : List Nat) :
    scanFrom true .q (qtB :: commaB :: rest) = .ok [] false false 2 1 := by
  simp [scanFrom, ScanRes.consSkip]

theorem scanFrom_q_close_lf (rest : List Nat) :
    scanFrom true .q (qtB :: lfB :: rest) = .ok [] false true 2 1 := by
  simp [scanFrom, ScanRes.consSkip]

theorem scanFrom_q_close_end :
    scanFrom true .q [qtB] = .ok [] false true 1 1 := by
  simp [scanFrom, ScanRes.consSkip]

theorem encField_quoted_length {f : SrcField} (hq : f.quoted = true) :
    (encField f).length = (escQuotes f.content).length + 2 := by
  simp [encField, hq]

theorem scanField_encField_comma (f : SrcField) (hwf : wfSrcField f) (rest : List Nat) :
    scanField true (encField f ++ commaB :: rest) =
      .ok (expData f) (f.quoted && f.content.contains qtB) false
        ((encField f).length + 1) (encField f).length := by
  cases hq : f.quoted with
  | true =>
    have henc : encField f ++ commaB :: rest =
        qtB :: (escQuotes f.content ++ (qtB :: commaB :: rest)) := by
      simp [encField, hq, List.append_assoc]
    rw [henc]
    simp only [scanField, if_pos rfl]
    rw [scanFrom_q_escQuotes f.content (scanFrom_q_close_comma rest)]
    rw [encField_quoted_length hq]
    simp [ScanRes.consSkip, expData, hq] <;> omega
  | false =>
    have hpc := hwf hq
    have hencf : encField f = f.content := by simp [encField, hq]
    rw [hencf]
    have hexp : expData f = f.content := by simp [expData, hq]
    rw [hexp]
    cases hc : f.content with
    | nil =>
      simp only [List.nil_append, hq, Bool.false_and]
      simp [scanField, scanFrom]
    | cons b pcs =>
      have hbne : b ≠ qtB := (hpc b (by rw [hc]; exact List.mem_cons_self b pcs)).2.1
      rw [← hc]
      have hne : f.content ++ commaB :: rest = b :: (pcs ++ commaB :: rest) := by
        rw [hc]; simp
      rw [hne]
      simp only [scanField, if_neg hbne]
      rw [← List.cons_append, ← hc]
      rw [(scanFrom_unq_plain f.content hpc).1 rest]
      simp [hq]

theorem scanField_encField_lf (f : SrcField) (hwf : wfSrcField f) (rest : List Nat) :
    scanField true (encField f ++ lfB :: rest) =
      .ok (expData f) (f.quoted && f.content.contains qtB) true
        ((encField f).length + 1) (encField f).length := by
  cases hq : f.quoted with
  | true =>
    have henc : encField f ++ lfB :: rest =
        qtB :: (escQuotes f.content ++ (qtB :: lfB :: rest)) := by
      simp [encField, hq, List.append_assoc]
    rw [henc]
    simp only [scanField, if_pos rfl]
    rw [scanFrom_q_escQuotes f.content (scanFrom_q_close_lf rest)]
    rw [encField_quoted_length hq]
    simp [ScanRes.consSkip, expData, hq] <;> omega
  | false =>
    have hpc := hwf hq
    have hencf : encField f = f.content := by simp [encField, hq]
    rw [hencf]
    have hexp : expData f = f.content := by simp [expData, hq]
    rw [hexp]
    cases hc : f.content with
    | nil =>
      simp only [List.nil_append, hq, Bool.false_and]
      simp [scanField, scanFrom]
    | cons b pcs =>
      have hbne : b ≠ qtB := (hpc b (by rw [hc]; exact List.mem_cons_self b pcs)).2.1
      rw [← hc]
      have hne : f.content ++ lfB :: rest = b :: (pcs ++ lfB :: rest) := by
        rw [hc]; simp
      rw [hne]
      simp only [scanField, if_neg hbne]
      rw [← List.cons_append, ← hc]
      rw [(scanFrom_unq_plain f.content hpc).2.1 rest]
      simp [hq]

theorem scanField_encField_end (f : SrcField) (hwf : wfSrcField f)
    (hne : encField f ≠ []) :
    scanField true (encField f) =
      .ok (expData f) (f.quoted && f.content.contains qtB) true
        (encField f).length (encField f).length := by
  cases hq : f.quoted with
  | true =>
    have henc : encField f = qtB :: (escQuotes f.content ++ [qtB]) := by
      simp [encField, hq]
    rw [henc]
    simp only [scanField, if_pos rfl]
    rw [scanFrom_q_escQuotes f.content scanFrom_q_close_end]
    simp [ScanRes.consSkip, expData, hq] <;> omega
  | false =>
    have hpc := hwf hq
    have hencf : encField f = f.content := by simp [encField, hq]
    rw [hencf] at hne ⊢
    have hexp : expData f = f.content := by simp [expData, hq]
    rw [hexp]
    cases hc : f.content with
    | nil => rw [hc] at hne; exact absurd rfl hne
    | cons b pcs =>
      have hbne : b ≠ qtB := (hpc b (by rw [hc]; exact List.mem_cons_self b pcs)).2.1
      rw [show scanField true (b :: pcs) = scanFrom true .unq (b :: pcs) from by
        simp [scanField, hbne]]
      rw [← hc, (scanFrom_unq_plain f.content hpc).2.2]
      simp [hq]

theorem encRow_single (f : SrcField) : encRow [f] = encField f := rfl

theorem encRow_cons (f g : SrcField) (rs : List SrcField) :
    encRow (f :: g :: rs) = encField f ++ commaB :: encRow (g :: rs) := rfl

theorem encCsv_single (row : List SrcField) : encCsv [row] = encRow row := rfl

theorem encCsv_cons (row row2 : List SrcField) (rrest : List (List SrcField)) :
    encCsv (row :: row2 :: rrest) = encRow row ++ lfB :: encCsv (row2 :: rrest) := rfl

theorem encField_eq_nil {f : SrcField} (h : encField f = []) :
    f.quoted = false ∧ f.content = [] := by
  cases hq : f.quoted with
  | true => simp [encField, hq] at h
  | false => simp [encField, hq] at h; exact ⟨rfl, h⟩

/-- One parse step at canonical fuel. -/
theorem parseStep_emit {u : List Nat} {p : Bool} {d : List Nat} {nu l : Bool}
    {c r : Nat} (hu : u ≠ []) (hscan : scanField true u = .ok d nu l c r) :
    parseLoopFull (parseFuel u) u p =
      (((⟨d, l, nu⟩ : csvz_field), c, r) ::
          (parseLoopFull (parseFuel (u.drop c)) (u.drop c) (decide (r < c))).1,
        (parseLoopFull (parseFuel (u.drop c)) (u.drop c) (decide (r < c))).2) := by
  have h1 : parseFuel u = (u.length + 1) + 1 := rfl
  rw [h1, parseLoopFull_emit hu hscan]
  have hc1 : 1 ≤ c := scanField_ok_pos hscan hu
  have hcu := (scanField_ok_bounds hscan).2
  rw [@parseLoopFull_fuel (u.drop c).length (u.drop c) le_rfl
    (u.length + 1) (parseFuel (u.drop c)) (decide (r < c))
    (by simp [List.length_drop]; omega) (by simp [parseFuel])]

theorem parse_encRow_lf (row : List SrcField) (hrow : row ≠ [])
    (hwf : ∀ f ∈ row, wfSrcField f) :
    ∀ (rest : List Nat) (p : Bool),
      ((parseLoopFull (parseFuel (encRow row ++ lfB :: rest))
          (encRow row ++ lfB :: rest) p).1.map (·.1) =
        expRow row ++ (parseLoopFull (parseFuel rest) rest true).1.map (·.1)) ∧
      (parseLoopFull (parseFuel (encRow row ++ lfB :: rest))
          (encRow row ++ lfB :: rest) p).2 =
        (parseLoopFull (parseFuel rest) rest true).2 := by
  induction row with
  | nil => exact absurd rfl hrow
  | cons f row' ih =>
    intro rest p
    cases row' with
    | nil =>
      rw [encRow_single]
      have hne : encField f ++ lfB :: rest ≠ [] := by simp
      have hscan := scanField_encField_lf f (hwf f (List.mem_cons_self f [])) rest
      rw [parseStep_emit hne hscan]
      have hdrop : (encField f ++ lfB :: rest).drop ((encField f).length + 1) = rest := by
        have : encField f ++ lfB :: rest = (encField f ++ [lfB]) ++ rest := by simp
        rw [this]
        have hlen : (encField f ++ [lfB]).length = (encField f).length + 1 := by simp
        rw [← hlen, List.drop_left]
      have hpend : decide ((encField f).length < (encField f).length + 1) = true := by
        simp
      rw [hdrop, hpend]
      constructor
      · simp [expRow, expField]
      · simp
    | cons g rs =>
      rw [encRow_cons]
      have hassoc : (encField f ++ commaB :: encRow (g :: rs)) ++ lfB :: rest =
          encField f ++ commaB :: (encRow (g :: rs) ++ lfB :: rest) := by simp
      rw [hassoc]
      have hne : encField f ++ commaB :: (encRow (g :: rs) ++ lfB :: rest) ≠ [] := by simp
      have hscan := scanField_encField_comma f (hwf f (List.mem_cons_self f (g :: rs)))
        (encRow (g :: rs) ++ lfB :: rest)
      rw [parseStep_emit hne hscan]
      have hdrop : (encField f ++ commaB :: (encRow (g :: rs) ++ lfB :: rest)).drop
          ((encField f).length + 1) = encRow (g :: rs) ++ lfB :: rest := by
        have : encField f ++ commaB :: (encRow (g :: rs) ++ lfB :: rest) =
            (encField f ++ [commaB]) ++ (encRow (g :: rs) ++ lfB :: rest) := by simp
        rw [this]
        have hlen : (encField f ++ [commaB]).length = (encField f).length + 1 := by simp
        rw [← hlen, List.drop_left]
      have hpend : decide ((encField f).length < (encField f).length + 1) = true := by
        simp
      rw [hdrop, hpend]
      have hih := ih (by simp) (fun x hx => hwf x (List.mem_cons_of_mem f hx)) rest true
      constructor
      · simp only [List.map_cons]
        rw [hih.1]
        simp [expRow, expField]
      · simpa using hih.2

theorem parse_encRow_end (row : List SrcField) (hrow : row ≠ [])
    (hwf : ∀ f ∈ row, wfSrcField f) :
    ∀ (p : Bool), (p = true ∨ encRow row ≠ []) →
      ((parseLoopFull (parseFuel (encRow row)) (encRow row) p).1.map (·.1) =
        expRow row) ∧
      (parseLoopFull (parseFuel (encRow row)) (encRow row) p).2 = .CSVZ_ERR_EOF := by
  induction row with
  | nil => exact absurd rfl hrow
  | cons f row' ih =>
    intro p hp
    cases row' with
    | nil =>
      rw [encRow_single] at hp ⊢
      by_cases hef : encField f = []
      · have hptrue : p = true := by
          rcases hp with hp | hp
          · exact hp
          · exact absurd hef hp
        subst hptrue
        rw [hef]
        rw [(by decide : parseLoopFull (parseFuel []) [] true =
          ([(((⟨[], true, false⟩ : csvz_field)), 0, 0)], .CSVZ_ERR_EOF))]
        obtain ⟨hq0, hc0⟩ := encField_eq_nil hef
        constructor
        · simp [expRow, expField, expData, hq0, hc0]
        · rfl
      · have hscan := scanField_encField_end f (hwf f (List.mem_cons_self f [])) hef
        rw [parseStep_emit hef hscan]
        have hdrop : (encField f).drop (encField f).length = [] := List.drop_length _
        have hpend : decide ((encField f).length < (encField f).length) = false := by simp
        rw [hdrop, hpend, parseLoopFull_nil (by simp [parseFuel])]
        constructor
        · simp [expRow, expField]
        · rfl
    | cons g rs =>
      rw [encRow_cons]
      have hne : encField f ++ commaB :: encRow (g :: rs) ≠ [] := by simp
      have hscan := scanField_encField_comma f (hwf f (List.mem_cons_self f (g :: rs)))
        (encRow (g :: rs))
      rw [parseStep_emit hne hscan]
      have hdrop : (encField f ++ commaB :: encRow (g :: rs)).drop
          ((encField f).length + 1) = encRow (g :: rs) := by
        have : encField f ++ commaB :: encRow (g :: rs) =
            (encField f ++ [commaB]) ++ encRow (g :: rs) := by simp
        rw [this]
        have hlen : (encField f ++ [commaB]).length = (encField f).length + 1 := by simp
        rw [← hlen, List.drop_left]
      have hpend : decide ((encField f).length < (encField f).length + 1) = true := by
        simp
      rw [hdrop, hpend]
      have hih := ih (by simp) (fun x hx => hwf x (List.mem_cons_of_mem f hx)) true
        (Or.inl rfl)
      constructor
      · simp only [List.map_cons]
        rw [hih.1]
        simp [expRow, expField]
      · simpa using hih.2

theorem parse_encCsv_aux (rows : List (List SrcField)) (hrows : rows ≠ [])
    (hwf : ∀ row ∈ rows, row ≠ [] ∧ ∀ f ∈ row, wfSrcField f) :
    ∀ (p : Bool), (p = true ∨ encCsv rows ≠ []) →
      ((parseLoopFull (parseFuel (encCsv rows)) (encCsv rows) p).1.map (·.1) =
        expFields rows) ∧
      (parseLoopFull (parseFuel (encCsv rows)) (encCsv rows) p).2 = .CSVZ_ERR_EOF := by
  induction rows with
  | nil => exact absurd rfl hrows
  | cons row rows' ih =>
    intro p hp
    cases rows' with
    | nil =>
      rw [encCsv_single] at hp ⊢
      have hrw := hwf row (List.mem_cons_self row [])
      have := parse_encRow_end row hrw.1 hrw.2 p hp
      constructor
      · rw [this.1]
        simp [expFields]
      · exact this.2
    | cons row2 rrest =>
      rw [encCsv_cons]
      have hrw := hwf row (List.mem_cons_self row (row2 :: rrest))
      have hlf := parse_encRow_lf row hrw.1 hrw.2 (encCsv (row2 :: rrest)) p
      have hih := ih (by simp) (fun x hx => hwf x (List.mem_cons_of_mem row hx)) true
        (Or.inl rfl)
      constructor
      · rw [hlf.1, hih.1]
        simp [expFields]
      · rw [hlf.2, hih.2]

theorem expRow_length (row : List SrcField) : (expRow row).length = row.length := by
  induction row with
  | nil => rfl
  | cons f row' ih =>
    cases row' with
    | nil => rfl
    | cons g rs =>
      simp only [expRow, List.length_cons] at ih ⊢
      omega

theorem expFields_length (rows : List (List SrcField)) :
    (expFields rows).length = (rows.map List.length).sum := by
  induction rows with
  | nil => rfl
  | cons row rows' ih =>
    simp only [expFields, List.flatMap_cons, List.length_append, List.map_cons,
      List.sum_cons] at ih ⊢
    rw [expRow_length, ih]

/-- C1: parsing any well-formed CSV input (rows of plain or quoted fields,
rows joined by line feeds, fields by commas) returns exactly one field per
source field, in row-major order, with `last_column` set exactly on each
row's final field, so the total count is the sum of the per-row column
counts; and the concrete input `a,b,"c,d"\ne,"f""g",h` with buffer capacity
64 yields the six expected fields and then EOF, under both one-byte pulls
and single large reads. -/
theorem claim_C1_field_sequence (rows : List (List SrcField))
    (hwf : ∀ row ∈ rows, row ≠ [] ∧ ∀ f ∈ row, wfSrcField f)
    (henc : rows = [] ∨ encCsv rows ≠ []) :
    parseContent (encCsv rows) = (expFields rows, .CSVZ_ERR_EOF) ∧
    (expFields rows).length = (rows.map List.length).sum ∧
    csvzRun 64 1 [97, 44, 98, 44, 34, 99, 44, 100, 34, 10, 101, 44, 34, 102,
        34, 34, 103, 34, 44, 104] =
      ([⟨[97], false, false⟩, ⟨[98], false, false⟩, ⟨[99, 44, 100], true, false⟩,
        ⟨[101], false, false⟩, ⟨[102, 34, 34, 103], false, true⟩,
        ⟨[104], true, false⟩], .CSVZ_ERR_EOF) ∧
    csvzRun 64 0 [97, 44, 98, 44, 34, 99, 44, 100, 34, 10, 101, 44, 34, 102,
        34, 34, 103, 34, 44, 104] =
      ([⟨[97], false, false⟩, ⟨[98], false, false⟩, ⟨[99, 44, 100], true, false⟩,
        ⟨[101], false, false⟩, ⟨[102, 34, 34, 103], false, true⟩,
        ⟨[104], true, false⟩], .CSVZ_ERR_EOF) := by
  refine ⟨?_, expFields_length rows, by decide, by decide⟩
  cases hrows : rows with
  | nil =>
    rw [(by decide : parseContent (encCsv []) = ([], .CSVZ_ERR_EOF))]
    rfl
  | cons row rows' =>
    rw [← hrows]
    have hne : rows ≠ [] := by rw [hrows]; simp
    have henc' : encCsv rows ≠ [] := by
      rcases henc with h | h
      · exact absurd h hne
      · exact h
    have haux := parse_encCsv_aux rows hne hwf false (Or.inr henc')
    simp only [parseContent]
    rw [haux.1, haux.2]

theorem claim_C1_field_sequence_witness :
    (∀ row ∈ ([[⟨[97], false⟩, ⟨[34], true⟩], [⟨[], false⟩]] : List (List SrcField)),
      row ≠ [] ∧ ∀ f ∈ row, wfSrcField f) ∧
    (([[⟨[97], false⟩, ⟨[34], true⟩], [⟨[], false⟩]] : List (List SrcField)) = [] ∨
      encCsv [[⟨[97], false⟩, ⟨[34], true⟩], [⟨[], false⟩]] ≠ []) ∧
    parseContent (encCsv [[⟨[97], false⟩, ⟨[34], true⟩], [⟨[], false⟩]]) =
      (expFields [[⟨[97], false⟩, ⟨[34], true⟩], [⟨[], false⟩]], .CSVZ_ERR_EOF) :=
  ⟨by decide, by decide,
    (claim_C1_field_sequence [[⟨[97], false⟩, ⟨[34], true⟩], [⟨[], false⟩]]
      (by decide) (by decide)).1⟩
